import Mathlib

/-!
Verification of the `cell` compiler core against its specification.

The development shallowly embeds the Rust sources:
* `src/register.rs` — words, word types, the frame (register file);
* `src/analyzer.rs` — events, the saveable/bufferable analyses, temporary
  register allocation, `Renamer`, `Stack`;
* `src/code.rs` — the instruction set and the interpreter's operator table;
* `src/amd/mod.rs` + `src/amd/macros.rs` — the AMD64 backend, down to the
  emitted machine-code bytes;
* `src/arm/mod.rs` — the AArch64 backend's emission for logic operators and
  its store guard;
* `src/model.rs` — expression lowering and `Program::new`;
* `src/runnable.rs` — the solver-facing call interface.

Floating-point (`f64`) values are modelled as rationals (`ℚ`); every claim
settled here is about data flow, emitted instruction sequences, set
inclusions or panics, none of which depend on rounding.  The bit pattern of
a 64-bit lane (used by the NEON logic instructions) is modelled as `ℕ`.
-/

namespace Cell

/-- A word names one 64-bit slot of the frame: an index and, for reused
temporaries, a version tag (`src/register.rs`, `struct Word`).  The `temp`
flag records whether the slot is a temporary.

Modelled from the spec: the method `Word::is_temp` is called by
`src/analyzer.rs` (`alloc_regs`) and `src/amd/mod.rs` (`load_xmm_indirect`,
`save_xmm_indirect`) but its declaration is not in `src/register.rs` (that
file carries `Frame::is_temp` instead); per the spec a word is a temporary
exactly when its frame slot has the `Temp` tag, so the tag is carried on
the word itself. -/
structure Word where
  idx : ℕ
  ver : ℕ
  temp : Bool
deriving DecidableEq, Repr

/-- Source `src/register.rs`, `enum WordType`.  `Const(-0.0)` is modelled as the
rational 0; only its bit pattern (not its value) is ever used by backends. -/
inductive WordType where
  | const (val : ℚ)
  | var (name : String)
  | state (name : String) (val : ℚ)
  | diff (name : String)
  | param (name : String) (val : ℚ)
  | obs (name : String)
  | temp
deriving DecidableEq, Repr

/-- Source `src/register.rs`, `struct Frame`.  The Rust `HashMap` is modelled as an
association list: `insert` conses, `lookup` takes the first hit. -/
structure Frame where
  words : List WordType
  named : List (String × ℕ)
  freed : List Word
deriving DecidableEq, Repr

def Frame.ZERO : Word := ⟨0, 0, false⟩

def Frame.ONE : Word := ⟨1, 0, false⟩

def Frame.MINUS_ONE : Word := ⟨2, 0, false⟩

def Frame.MINUS_ZERO : Word := ⟨3, 0, false⟩

/-- Source `Frame::new`: the four reserved constant slots {0.0, 1.0, −1.0, −0.0}. -/
def Frame.new : Frame :=
  { words := [.const 0, .const 1, .const (-1), .const 0]
    named := []
    freed := [] }

/-- Source `Frame::alloc_temp`: pop the most recently freed slot (bumping its
version), otherwise grow the frame. -/
def Frame.allocTemp (f : Frame) : Word × Frame :=
  match f.freed with
  | w :: rest => (⟨w.idx, w.ver + 1, true⟩, { f with freed := rest })
  | [] =>
      (⟨f.words.length, 0, true⟩, { f with words := f.words ++ [.temp] })

/-- Source `Frame::alloc`.  A duplicate name is the Rust panic, modelled as
`Except.error` carrying the panic message. -/
def Frame.alloc (f : Frame) (t : WordType) : Except String (Word × Frame) :=
  match t with
  | .temp => .ok f.allocTemp
  | .const v =>
      .ok (⟨f.words.length, 0, false⟩, { f with words := f.words ++ [.const v] })
  | .var s | .state s _ | .param s _ | .obs s =>
      if (f.named.lookup s).isSome then
        .error "key already exists"
      else
        .ok (⟨f.words.length, 0, false⟩,
          { words := f.words ++ [t], named := (s, f.words.length) :: f.named,
            freed := f.freed })
  | .diff s =>
      if (f.named.lookup ("δ" ++ s)).isSome then
        .error "diff key already exists"
      else
        .ok (⟨f.words.length, 0, false⟩,
          { words := f.words ++ [t], named := ("δ" ++ s, f.words.length) :: f.named,
            freed := f.freed })

/-- Source `Frame::free`: only `Temp` slots are pushed onto the free list. -/
def Frame.free (f : Frame) (r : Word) : Frame :=
  if f.words.get? r.idx = some .temp then { f with freed := r :: f.freed } else f

/-- Source `Frame::is_diff`. -/
def Frame.isDiff (f : Frame) (r : Word) : Bool :=
  match f.words.get? r.idx with
  | some (.diff _) => true
  | _ => false

/-- Source `Frame::find`. -/
def Frame.find (f : Frame) (s : String) : Option Word :=
  (f.named.lookup s).map (fun idx => ⟨idx, 0, false⟩)

def WordType.isState : WordType → Bool
  | .state _ _ => true
  | _ => false

def WordType.isParam : WordType → Bool
  | .param _ _ => true
  | _ => false

def WordType.isDiff : WordType → Bool
  | .diff _ => true
  | _ => false

def WordType.isObs : WordType → Bool
  | .obs _ => true
  | _ => false

/-- Source `Frame::count_states`. -/
def Frame.countStates (f : Frame) : ℕ := (f.words.filter WordType.isState).length

/-- Source `Frame::count_params`. -/
def Frame.countParams (f : Frame) : ℕ := (f.words.filter WordType.isParam).length

/-- Modelled from the spec: `Frame::count_diffs` is called by
`src/runnable.rs` but is missing from `src/register.rs`; the spec (§4.1)
lists counts per category, so it counts the `Diff` slots. -/
def Frame.countDiffs (f : Frame) : ℕ := (f.words.filter WordType.isDiff).length

/-- Source `Frame::first_state` (position of the first `State` slot). -/
def Frame.firstState (f : Frame) : Option ℕ := f.words.findIdx? WordType.isState

/-- Source `Frame::first_param`. -/
def Frame.firstParam (f : Frame) : Option ℕ := f.words.findIdx? WordType.isParam

/-- Modelled from the spec: `Frame::first_diff` is called by
`src/runnable.rs` but is missing from `src/register.rs`; per §4.1 it is the
index of the first `Diff` slot. -/
def Frame.firstDiff (f : Frame) : Option ℕ := f.words.findIdx? WordType.isDiff

/-- Source `WordType::value`. -/
def WordType.value : WordType → Option ℚ
  | .state _ v => some v
  | .param _ v => some v
  | .const v => some v
  | _ => none

/-- Source `Frame::mem`: the initial memory image. -/
def Frame.mem (f : Frame) : List ℚ :=
  f.words.map (fun w => (w.value).getD 0)

/-- Source `src/analyzer.rs`, `struct Renamer`: the logical→physical register map
used by the AMD backend. -/
structure Renamer where
  mapping : List ℕ
deriving DecidableEq, Repr

/-- Source `Renamer::new(n)`: the identity mapping on `0..n`. -/
def Renamer.new (n : ℕ) : Renamer := ⟨List.range n⟩

/-- Source `Renamer::reset`. -/
def Renamer.reset (r : Renamer) : Renamer := ⟨List.range r.mapping.length⟩

/-- Source `Renamer::get`. -/
def Renamer.get (r : Renamer) (i : ℕ) : ℕ := r.mapping.getD i 0

/-- Source `Renamer::swap(i, j)`: sets `mapping[i] = mapping[j]`; the write of the
old `mapping[i]` into `mapping[j]` is commented out in the source. -/
def Renamer.swap (r : Renamer) (i j : ℕ) : Renamer :=
  ⟨r.mapping.set i (r.mapping.getD j 0)⟩

/-- Source `src/analyzer.rs`, `struct Stack`: scratch-stack bookkeeping with a
high-water mark.  The list head is the top of the stack. -/
structure Stack where
  stack : List Word
  cap : ℕ
deriving DecidableEq, Repr

def Stack.new : Stack := ⟨[], 0⟩

/-- Source `Stack::push` returns the index of the new top (`len - 1` after the
push, i.e. the length before it). -/
def Stack.push (s : Stack) (w : Word) : ℕ × Stack :=
  (s.stack.length, ⟨w :: s.stack, max s.cap (s.stack.length + 1)⟩)

/-- Source `Stack::pop(expect)`: pops and asserts the popped word is the expected
one; panics ("stack is empty" / assertion) otherwise. -/
def Stack.pop (s : Stack) (w : Word) : Except String (ℕ × Stack) :=
  match s.stack with
  | [] => .error "stack is empty"
  | t :: rest =>
      if t = w then .ok (rest.length, ⟨rest, s.cap⟩)
      else .error "stack pop assertion"

/-- Predicate: `e` ends with the message `m` (the panic message `m` is a suffix of the
actual message `e`). -/
def endsWithMsg (e m : String) : Prop := ∃ p, e.data = p ++ m.data

/-- Source `src/code.rs`, `enum Instruction` (the current IR). -/
inductive Instr where
  | unary (op : String) (x dst : Word) (p : ℕ)
  | binary (op : String) (x y dst : Word) (p : ℕ)
  | ifElse (x1 x2 cond dst : Word)
  | num (val : ℚ) (dst : Word)
  | varMark (name : String) (reg : Word)
  | eqMark (dst : Word)
  | nop
deriving DecidableEq, Repr

/-- Source `src/analyzer.rs`, `enum Event`. -/
inductive Event where
  | producer (w : Word)
  | consumer (w : Word)
  | caller (op : String)
deriving DecidableEq, Repr

/-- The per-instruction event expansion of `Analyzer::new`: for `Binary`
the consumers are pushed `y` first, then `x`; for `IfElse` the order is
`cond`, `x2`, `x1` and the caller is `"select"`. -/
def instrEvents : Instr → List Event
  | .unary op x dst _ => [.consumer x, .caller op, .producer dst]
  | .binary op x y dst _ => [.consumer y, .consumer x, .caller op, .producer dst]
  | .ifElse x1 x2 cond dst =>
      [.consumer cond, .consumer x2, .consumer x1, .caller "select", .producer dst]
  | _ => []

/-- Source `Analyzer::new(prog).events`: the flattened event stream of a code
vector. -/
def analyzerEvents (code : List Instr) : List Event :=
  code.flatMap instrEvents

/-- Source `HashSet::insert`, modelled on lists: add the element unless present. -/
def insertW (c : Word) (s : List Word) : List Word :=
  if c ∈ s then s else c :: s

/-- One step of `Analyzer::find_saveable`: push producers; on a consumer
pop the top candidate, record the consumed word if it is still on the
stack, and push the candidate back.  The list head is the stack top. -/
def saveStep : List Word × List Word → Event → List Word × List Word
  | (cand, sav), .producer p => (p :: cand, sav)
  | (cand, sav), .consumer c =>
      match cand with
      | [] => ([], sav)
      | t :: rest => (t :: rest, if c ∈ rest then insertW c sav else sav)
  | (cand, sav), .caller _ => (cand, sav)

/-- Source `Analyzer::find_saveable` (as a set of words, membership-faithful to
the Rust `HashSet`). -/
def find_saveable (events : List Event) : List Word :=
  (events.foldl saveStep ([], [])).2

/-- The fixed list of externally-called transcendental operators shared by
`find_bufferable` and `alloc_regs`. -/
def transcendentalOps : List String :=
  ["rem", "power", "sin", "cos", "tan", "csc", "sec", "cot", "arcsin",
   "arccos", "arctan", "exp", "ln", "log", "root"]

/-- One step of `Analyzer::find_bufferable`: identical to `saveStep`
except that a caller event whose operator is transcendental clears the
candidate stack. -/
def bufStep : List Word × List Word → Event → List Word × List Word
  | (cand, buf), .producer p => (p :: cand, buf)
  | (cand, buf), .consumer c =>
      match cand with
      | [] => ([], buf)
      | t :: rest => (t :: rest, if c ∈ rest then insertW c buf else buf)
  | (cand, buf), .caller op =>
      (if op ∈ transcendentalOps then [] else cand, buf)

/-- Source `Analyzer::find_bufferable`. -/
def find_bufferable (events : List Event) : List Word :=
  (events.foldl bufStep ([], [])).2

/-- The three-instruction code vector used to witness C3 and C4: two moves
into temporaries followed by an addition that consumes them out of
last-in-first-out order, making the first temporary saveable. -/
def exampleCode : List Instr :=
  [.unary "mov" ⟨4, 0, false⟩ ⟨6, 0, true⟩ 0,
   .unary "mov" ⟨5, 0, false⟩ ⟨7, 0, true⟩ 0,
   .binary "plus" ⟨6, 0, true⟩ ⟨7, 0, true⟩ ⟨8, 0, true⟩ 1]

/-- The produced words of an event stream, in order. -/
def prods (es : List Event) : List Word :=
  es.filterMap fun e =>
    match e with
    | .producer w => some w
    | _ => none

/-- Predicate: `w` is recorded saveable relative to an inherited candidate stack
`cand`: some consumer of `w` in `es` still finds `w` strictly below the
top of the candidate stack accumulated up to that point. -/
def GenSpec (cand : List Word) (es : List Event) (w : Word) : Prop :=
  ∃ l r, es = l ++ .consumer w :: r ∧ w ∈ ((prods l).reverse ++ cand).tail

/-- The running state of `Analyzer::alloc_regs`: the accumulated
temporary→depth map (an association list; later inserts shadow earlier
ones), the live list of produced-but-unconsumed temporaries, and the
high-water depth. -/
structure RegState where
  allocs : List (Word × ℕ)
  lives : List Word
  depth : ℕ
deriving DecidableEq, Repr

/-- One event step of `Analyzer::alloc_regs`.  A temporary consumer pops
the live list and panics ("temps out of stack order") when the popped word
differs from the consumed one; with an empty live list the `if let` falls
through and nothing at all happens.  Transcendental callers clear the live
list and reset the depth. -/
def regStep (st : RegState) : Event → Except String RegState
  | .producer p =>
      if p.temp then
        .ok ⟨st.allocs, p :: st.lives, max st.depth (st.lives.length + 1)⟩
      else
        .ok st
  | .consumer c =>
      if c.temp then
        match st.lives with
        | [] => .ok st
        | r :: rest =>
            if r = c then .ok ⟨(c, rest.length) :: st.allocs, rest, st.depth⟩
            else .error "temps out of stack order"
      else
        .ok st
  | .caller op =>
      if op ∈ transcendentalOps then .ok ⟨st.allocs, [], 0⟩ else .ok st

/-- Source `Analyzer::alloc_regs` run over an event stream. -/
def alloc_regs (es : List Event) : Except String (List (Word × ℕ)) :=
  (es.foldlM regStep ⟨[], [], 0⟩).map RegState.allocs

/-- One instruction emitted by the AArch64 backend (`src/arm/mod.rs`).
The source pushes textual assembler lines (or, for the four scalar
arithmetic ops, pre-encoded words); the emitted stream is modelled
abstractly with one constructor per mnemonic, operands as register
numbers and byte offsets.  `strD x off` is `str d{x}, [x19, #off]`,
`ldrD x off` is `ldr d{x}, [x19, #off]`, `ldrVt x off` is
`ldr x{x}, [x20, #off]`. -/
inductive ArmInstr where
  | fadd (d n m : ℕ)
  | fsub (d n m : ℕ)
  | fmul (d n m : ℕ)
  | fdiv (d n m : ℕ)
  | fcmgt (d n m : ℕ)
  | fcmge (d n m : ℕ)
  | fcmlt (d n m : ℕ)
  | fcmle (d n m : ℕ)
  | cmpeq (d n m : ℕ)
  | andv (d n m : ℕ)
  | orrv (d n m : ℕ)
  | eorv (d n m : ℕ)
  | fneg (d n : ℕ)
  | fsqrt (d n : ℕ)
  | notd (d n : ℕ)
  | fmovImm (x : ℕ) (v : ℚ)
  | fmovRR (d n : ℕ)
  | strD (x off : ℕ)
  | ldrD (x off : ℕ)
  | ldrVt (x off : ℕ)
  | blr (x : ℕ)
deriving DecidableEq, Repr

/-- The mutable fields of `ArmCompiler` that `op_code` can read or write:
the two hold-register slots and the `optimize` flag. -/
structure ArmState where
  x4 : Option Word
  x5 : Option Word
  optimize : Bool
deriving DecidableEq, Repr

/-- Source `ArmCompiler::save_xmm_indirect`: emit a store to the frame slot only
when the word's index is greater than 2. -/
def armSaveXmmIndirect (x : ℕ) (r : Word) : List ArmInstr :=
  if r.idx > 2 then [.strD x (8 * r.idx)] else []

/-- Source `ArmCompiler::dump_buffer`: flush both hold registers through
`save_xmm_indirect` (D4 and D5) and mark them empty. -/
def armDumpBuffer (st : ArmState) : List ArmInstr × ArmState :=
  let e4 := match st.x4 with
    | some s => armSaveXmmIndirect 4 s
    | none => []
  let e5 := match st.x5 with
    | some s => armSaveXmmIndirect 5 s
    | none => []
  (e4 ++ e5, { st with x4 := none, x5 := none })

/-- Source `ArmCompiler::op_code`: the per-operator emission.  Note the three
logic operators name `v0.8b` for *both* sources: `and v0.8b, v0.8b, v0.8b`,
`orr v0.8b, v0.8b, v0.8b`, `eor v0.8b, v0.8b, v0.8b`.  Operators without
an inline implementation flush the hold buffer (when not optimizing) and
emit an indirect call through the vtable at `x20`. -/
def armOpCode (st : ArmState) (op : String) (p : ℕ) : List ArmInstr × ArmState :=
  match op with
  | "mov" => ([], st)
  | "plus" => ([.fadd 0 0 1], st)
  | "minus" => ([.fsub 0 0 1], st)
  | "times" => ([.fmul 0 0 1], st)
  | "divide" => ([.fdiv 0 0 1], st)
  | "gt" => ([.fcmgt 0 0 1], st)
  | "geq" => ([.fcmge 0 0 1], st)
  | "lt" => ([.fcmlt 0 0 1], st)
  | "leq" => ([.fcmle 0 0 1], st)
  | "eq" => ([.cmpeq 0 0 1], st)
  | "and" => ([.andv 0 0 0], st)
  | "or" => ([.orrv 0 0 0], st)
  | "xor" => ([.eorv 0 0 0], st)
  | "neg" => ([.fneg 0 0], st)
  | "root" => ([.fsqrt 0 0], st)
  | "neq" => ([.cmpeq 0 0 1, .notd 0 0], st)
  | _ =>
      let (e, st') := if !st.optimize then armDumpBuffer st else ([], st)
      (e ++ [.ldrVt 0 (8 * p), .blr 0], st')

/-- Architecture semantics of the NEON bit operations on one 64-bit lane
(register values as bit patterns in `ℕ`): `and`/`orr`/`eor` are bitwise
conjunction, disjunction and exclusive or of their two source registers,
written to the destination.  Other instructions are out of scope here. -/
def armLogicSem (i : ArmInstr) (regs : ℕ → ℕ) : Option (ℕ → ℕ) :=
  match i with
  | .andv d n m => some (fun k => if k = d then Nat.land (regs n) (regs m) else regs k)
  | .orrv d n m => some (fun k => if k = d then Nat.lor (regs n) (regs m) else regs k)
  | .eorv d n m => some (fun k => if k = d then Nat.xor (regs n) (regs m) else regs k)
  | _ => none

/-- Source `src/code.rs`, `impl Code`: the interpreter's host-function table
entries for the logic operators and a few arithmetic ones (`f64` modelled
as `ℚ`; the transcendental entries are irrelevant to the claims settled
here).  Comparisons and logic ops return 1.0 for true and −1.0 for false. -/
def Code.mov (x _y : ℚ) : ℚ := x

def Code.plus (x y : ℚ) : ℚ := x + y

def Code.minus (x y : ℚ) : ℚ := x - y

def Code.neg (x _y : ℚ) : ℚ := -x

def Code.times (x y : ℚ) : ℚ := x * y

def Code.gt (x y : ℚ) : ℚ := if y < x then 1 else -1

def Code.lt (x y : ℚ) : ℚ := if x < y then 1 else -1

/-- Source `Code::and`: `if x > 0.0 && y > 0.0 { 1.0 } else { -1.0 }`. -/
def Code.and (x y : ℚ) : ℚ := if 0 < x ∧ 0 < y then 1 else -1

/-- Source `Code::or`: `if x > 0.0 || y > 0.0 { 1.0 } else { -1.0 }`. -/
def Code.or (x y : ℚ) : ℚ := if 0 < x ∨ 0 < y then 1 else -1

/-- Source `Code::xor`: `if x * y < 0.0 { 1.0 } else { -1.0 }`. -/
def Code.xor (x y : ℚ) : ℚ := if x * y < 0 then 1 else -1

/-- Source `src/interpreter/mod.rs`, `enum Fast`: the interpreter's dense records
with raw memory indices and resolved host functions. -/
inductive Fast where
  | unary (f : ℚ → ℚ → ℚ) (x dst : ℕ)
  | binary (f : ℚ → ℚ → ℚ) (x y dst : ℕ)
  | ifelse (x1 x2 cond dst : ℕ)

/-- One dispatch step of `ByteCode::run`: unary ops pass 0.0 as the second
argument; `IfElse` selects on `cond > 0.0`. -/
def fastStep (mem : List ℚ) : Fast → List ℚ
  | .unary f x dst => mem.set dst (f (mem.getD x 0) 0)
  | .binary f x y dst => mem.set dst (f (mem.getD x 0) (mem.getD y 0))
  | .ifelse x1 x2 cond dst =>
      mem.set dst (if 0 < mem.getD cond 0 then mem.getD x1 0 else mem.getD x2 0)

/-- Source `ByteCode::run`: indexed dispatch over the record array. -/
def byteCodeRun (code : List Fast) (mem : List ℚ) : List ℚ :=
  code.foldl fastStep mem

/-- Source `slice::copy_from_slice` of `src` into `mem[s .. s + src.len()]`.
Rust panics when the region is out of bounds or of mismatched length;
callers of the lemmas below establish `s + src.length ≤ mem.length`. -/
def sliceCopy (mem : List ℚ) (s : ℕ) (src : List ℚ) : List ℚ :=
  mem.take s ++ src ++ mem.drop (s + src.length)

/-- Source `Callable::call for Runnable` (`src/runnable.rs`): write `t` into slot
`first_state - 1`, copy `u` over the `State` region and `p` over the
`Param` region, invoke the backend's `run`, and read `du` back from the
`Diff` region.  Returns `(du, final memory)`. -/
def runnableCall (runF : List ℚ → List ℚ) (mem : List ℚ)
    (firstState firstParam firstDiff countDiffs : ℕ)
    (u p : List ℚ) (t : ℚ) : List ℚ × List ℚ :=
  let m1 := mem.set (firstState - 1) t
  let m2 := sliceCopy m1 firstState u
  let m3 := sliceCopy m2 firstParam p
  let m4 := runF m3
  (((m4.drop firstDiff).take countDiffs), m4)

/-- Run a sequence of frame allocations, keeping only the frame
(`Program::new` ignores the returned words of its `alloc` calls). -/
def allocSeq (f : Frame) (ts : List WordType) : Except String Frame :=
  ts.foldlM (fun fr t => (fr.alloc t).map Prod.snd) f

/-- Source `Program::new` (`src/model.rs`): starting from `Frame::new`, allocate
the independent variable, then a `State` slot per state, then a `Diff`
slot per state, then a `Param` slot per parameter — in that order. -/
def programNewFrame (iv : String) (states params : List (String × ℚ)) :
    Except String Frame :=
  allocSeq Frame.new
    ([WordType.var iv] ++ states.map (fun v => WordType.state v.1 v.2)
      ++ states.map (fun v => WordType.diff v.1)
      ++ params.map (fun v => WordType.param v.1 v.2))

/-- The frame memory as it stands when the backend's `run` is invoked by
`Runnable::call`: `t` in slot 4 (`first_state - 1`), `u` over the `State`
region starting at 5, `p` over the `Param` region starting at `5 + 2·n`. -/
def preRunMem (mem u p : List ℚ) (t : ℚ) (n : ℕ) : List ℚ :=
  sliceCopy (sliceCopy (mem.set 4 t) 5 u) (5 + 2 * n) p

/-- The instruction set of `src/model.rs`'s lowering (`Instruction::{Op,
Num, Var}` with plain `Reg` indices); the `Op` variant referenced by
`model.rs` is declared in the revision of `code.rs` that is absent from
`src/` — it is modelled from `model.rs`'s construction sites
(`Instruction::Op { op, x, y, dst, p: Proc(p) }`). -/
inductive OInstr where
  | op (opName : String) (x y dst : ℕ) (p : ℕ)
  | num (val : ℚ) (dst : ℕ)
  | varMark (name : String) (reg : ℕ)
deriving DecidableEq, Repr

/-- Modelled from the spec: the frame revision used by `src/model.rs`
(plain `Reg` indices, no version tags) is absent from `src/`; per §4.1
temps reuse a freed slot (LIFO) or grow the frame, constants append. -/
structure OFrame where
  words : List WordType
  named : List (String × ℕ)
  freed : List ℕ
deriving DecidableEq, Repr

def OFrame.allocTemp (f : OFrame) : ℕ × OFrame :=
  match f.freed with
  | r :: rest => (r, { f with freed := rest })
  | [] => (f.words.length, { f with words := f.words ++ [.temp] })

def OFrame.allocConst (f : OFrame) (v : ℚ) : ℕ × OFrame :=
  (f.words.length, { f with words := f.words ++ [.const v] })

/-- Source `src/model.rs`, `struct Program` of the `Reg` revision: code vector,
frame and virtual table.  `push_op` deduplicates the virtual table by host
function pointer; every operator name lowered by `Expr::lower` maps to a
distinct `Code` function, so the table is keyed here by operator name. -/
structure OProg where
  code : List OInstr
  frame : OFrame
  vt : List String
deriving DecidableEq, Repr

/-- Source `Program::push`. -/
def OProg.push (p : OProg) (i : OInstr) : OProg :=
  { p with code := p.code ++ [i] }

/-- Source `Program::push_op`: look the function up in the virtual table
(appending it when missing) and push an `Op` instruction carrying the
table index. -/
def OProg.pushOp (prog : OProg) (op : String) (x y dst : ℕ) : OProg :=
  let p := prog.vt.indexOf op
  let vt' := if op ∈ prog.vt then prog.vt else prog.vt ++ [op]
  { prog with code := prog.code ++ [.op op x y dst p], vt := vt' }

/-- Source `Program::alloc_temp`. -/
def OProg.allocTemp (prog : OProg) : ℕ × OProg :=
  ((prog.frame.allocTemp).1, { prog with frame := (prog.frame.allocTemp).2 })

/-- Source `Program::alloc_const`. -/
def OProg.allocConst (prog : OProg) (v : ℚ) : ℕ × OProg :=
  ((prog.frame.allocConst v).1,
   { prog with frame := (prog.frame.allocConst v).2 })

/-- Source `Program::reg`: look a name up among the named slots ( `State`,
`Param`, `Obs` and `Var` names share one map); `none` is the source's
"cannot find reg by name" panic. -/
def OProg.reg (prog : OProg) (name : String) : Option ℕ :=
  prog.frame.named.lookup name

/-- Source `Program::free` / `Frame::free`: only `Temp` slots are recycled. -/
def OProg.free (prog : OProg) (r : ℕ) : OProg :=
  if prog.frame.words.get? r = some .temp then
    { prog with frame := { prog.frame with freed := r :: prog.frame.freed } }
  else
    prog

/-- Source `src/model.rs`, `enum Expr`. -/
inductive OExpr where
  | tree (op : String) (args : List OExpr)
  | constE (val : ℚ)
  | varE (name : String)
deriving Repr

/-- The operator names accepted by `Expr::lower_unary` (note `"minus"`
lowers to the *negation* function in the unary position). -/
def unaryOpNames : List String :=
  ["minus", "sin", "cos", "tan", "csc", "sec", "cot", "arcsin", "arccos",
   "arctan", "exp", "log", "ln", "root"]

/-- The operator names accepted by `Expr::lower_binary`. -/
def binaryOpNames : List String :=
  ["plus", "minus", "times", "divide", "power", "rem", "gt", "geq", "lt",
   "leq", "eq", "neq", "and", "or", "xor"]

mutual

/-- Source `Expr::lower` (`src/model.rs`): `Const 0/1/−1` bind to the reserved
slots `Reg(0)/Reg(1)/Reg(2)` without emitting anything, other constants
allocate a `Const` slot and emit a `Num` marker, variables resolve by name
and emit a `Var` marker, and trees dispatch on arity — inlined here are
`lower_unary` (arity 1: result into a fresh temp, second operand
`Reg(0)`), `lower_binary` (arity 2: lower both operands, allocate a temp,
emit the operator — with *no* special case for `MINUS_ONE` operands —
and free both inputs) and `lower_ternary` (an `ifelse` becomes `if_pos` /
`if_neg` / `plus`); other arities fold through `lower_poly`.  A missing
operator or unresolvable name is the source's panic. -/
def olower : OExpr → OProg → Except String (ℕ × OProg)
  | .constE val, prog =>
      if val = 0 then .ok (0, prog)
      else if val = 1 then .ok (1, prog)
      else if val = -1 then .ok (2, prog)
      else
        let (dst, p1) := prog.allocConst val
        .ok (dst, p1.push (.num val dst))
  | .varE name, prog =>
      match prog.reg name with
      | some dst => .ok (dst, prog.push (.varMark name dst))
      | none => .error "cannot find reg by name"
  | .tree op args, prog =>
      match args with
      | [a] => do
          let (x, p1) ← olower a prog
          let (dst, p2) := p1.allocTemp
          if op ∈ unaryOpNames then
            .ok (dst, (p2.pushOp op x 0 dst).free x)
          else
            .error "missing op"
      | [a, b] => do
          let (x, p1) ← olower a prog
          let (y, p2) ← olower b p1
          let (dst, p3) := p2.allocTemp
          if op ∈ binaryOpNames then
            .ok (dst, ((p3.pushOp op x y dst).free x).free y)
          else
            .error "missing op"
      | [a, b, c] =>
          if op = "ifelse" then do
            let (x, p1) ← olower a prog
            let (y1, p2) ← olower b p1
            let (y2, p3) ← olower c p2
            let (t1, p4) := p3.allocTemp
            let (t2, p5) := p4.allocTemp
            let (dst, p6) := p5.allocTemp
            let p7 := ((p6.pushOp "if_pos" x y1 t1).pushOp "if_neg" x y2
              t2).pushOp "plus" t1 t2 dst
            .ok (dst, ((((p7.free x).free y1).free y2).free t1).free t2)
          else
            olowerPoly op ([a, b, c] : List OExpr) prog
      | other => olowerPoly op other prog
termination_by e _ => sizeOf e
decreasing_by all_goals (simp_wf <;> omega)

/-- Source `Expr::lower_poly`: only `plus` and `times` fold; the head is lowered
first. -/
def olowerPoly (op : String) (args : List OExpr) (prog : OProg) :
    Except String (ℕ × OProg) :=
  if op = "plus" ∨ op = "times" then
    match args with
    | [] => .error "missing op"
    | a :: rest => do
        let (x, p1) ← olower a prog
        olowerPolyAux op x rest p1
  else
    .error "missing op"
termination_by sizeOf args
decreasing_by all_goals (simp_wf <;> omega)

/-- The left fold of `Expr::lower_poly`: lower the next operand, emit the
operator into a fresh temp, free the previous accumulator. -/
def olowerPolyAux (op : String) (x : ℕ) (rest : List OExpr) (prog : OProg) :
    Except String (ℕ × OProg) :=
  match rest with
  | [] => .ok (x, prog)
  | y :: rest' => do
      let (ry, p1) ← olower y prog
      let (dst, p2) := p1.allocTemp
      let p3 := (p2.pushOp op x ry dst).free x
      olowerPolyAux op dst rest' p3
termination_by sizeOf rest
decreasing_by all_goals (simp_wf <;> omega)

end

def OInstr.isNum : OInstr → Bool
  | .num _ _ => true
  | _ => false

def OInstr.isOpNamed (o : String) : OInstr → Bool
  | .op o' _ _ _ _ => o' == o
  | _ => false

/-- Source `Program` of the current revision (`src/model.rs` of this revision is
absent from `src/`; per spec §3 a program holds the code vector, the frame
and the function table — the table is irrelevant to the claims settled
here and omitted). -/
structure Program where
  code : List Instr
  frame : Frame
deriving Repr

/-- Source `modrm_reg!(x, y)` (`src/amd/macros.rs`): `0xC0 + (y << 3) + x`. -/
def modrmReg (x y : ℕ) : ℕ := 0xC0 + y * 8 + x

/-- Source `modrm_mem!(dst, base, offset)`: disp8 when the offset fits in 7 bits,
otherwise disp32 (little endian); an SIB byte `0x24` follows for `rsp`. -/
def modrmMem (dst base off : ℕ) : List ℕ :=
  (if off < 128 then [0x40 + dst * 8 + base] else [0x80 + dst * 8 + base])
    ++ (if base = 4 then [0x24] else [])
    ++ (if off < 128 then [off % 256]
        else [off % 256, off / 256 % 256, off / 65536 % 256,
          off / 16777216 % 256])

/-- Little-endian 32-bit immediate. -/
def imm32 (n : ℕ) : List ℕ :=
  [n % 256, n / 256 % 256, n / 65536 % 256, n / 16777216 % 256]

/-- Source `amd!{addsd/subsd/mulsd/divsd xmm(d), xmm(s)}` and friends:
`[0xf2, 0x0f, op, modrm_reg(s, d)]`. -/
def amdArith (opByte d s : ℕ) : List ℕ := [0xf2, 0x0f, opByte, modrmReg s d]

/-- Source `amd!{cmpXXsd xmm(d), xmm(s)}`: `0f c2` with the predicate immediate. -/
def amdCmp (imm d s : ℕ) : List ℕ := [0xf2, 0x0f, 0xc2, modrmReg s d, imm]

/-- Source `amd!{andpd/andnpd/orpd/xorpd xmm(d), xmm(s)}`. -/
def amdLogic (opByte d s : ℕ) : List ℕ := [0x66, 0x0f, opByte, modrmReg s d]

/-- Source `amd!{movsd xmm(d), xmm(s)}`. -/
def amdMovsdRR (d s : ℕ) : List ℕ := [0xf2, 0x0f, 0x10, modrmReg s d]

/-- Source `amd!{movapd xmm(d), xmm(s)}`. -/
def amdMovapd (d s : ℕ) : List ℕ := [0x66, 0x0f, 0x28, modrmReg s d]

/-- Source `amd!{movsd xmm(d), qword ptr [base+off]}`. -/
def amdMovsdLoad (d base off : ℕ) : List ℕ :=
  [0xf2, 0x0f, 0x10] ++ modrmMem d base off

/-- Source `amd!{movsd qword ptr [base+off], xmm(s)}`. -/
def amdMovsdStore (base off s : ℕ) : List ℕ :=
  [0xf2, 0x0f, 0x11] ++ modrmMem s base off

/-- Source `amd!{mov rax, qword ptr [rbx+off]}` (rax = 0, rbx = 3). -/
def amdMovRaxRbx (off : ℕ) : List ℕ := [0x48, 0x8b] ++ modrmMem 0 3 off

/-- Source `amd!{call rax}`. -/
def amdCallRax : List ℕ := [0xff, 0xd0]

/-- The mutable state of `AmdCompiler` (`src/amd/mod.rs`): the machine
code buffer, the four hold-register slots, the scratch stack bookkeeping,
and the renamer. -/
structure AmdCompiler where
  machineCode : List ℕ
  buf : List (Option Word)
  stack : Stack
  renamer : Renamer
deriving DecidableEq, Repr

def AmdCompiler.new : AmdCompiler :=
  ⟨[], [none, none, none, none], Stack.new, Renamer.new 8⟩

/-- Source `AmdCompiler::n`. -/
def AmdCompiler.n (c : AmdCompiler) (x : ℕ) : ℕ := c.renamer.get x

/-- Source `AmdCompiler::push_vec`. -/
def AmdCompiler.pushVec (c : AmdCompiler) (v : List ℕ) : AmdCompiler :=
  { c with machineCode := c.machineCode ++ v }

/-- Source `AmdCompiler::op_code`: per-operator emission through the renamer.
`neg` loads the `MINUS_ZERO` sign mask and xors; operators not
implemented inline copy the accumulator to physical `xmm0` if renamed
away, reset the renamer, and call through the vtable at `rbx`. -/
def AmdCompiler.op_code (c : AmdCompiler) (op : String) (p : ℕ) :
    AmdCompiler :=
  match op with
  | "mov" => c
  | "plus" => c.pushVec (amdArith 0x58 (c.n 0) (c.n 1))
  | "minus" => c.pushVec (amdArith 0x5c (c.n 0) (c.n 1))
  | "times" => c.pushVec (amdArith 0x59 (c.n 0) (c.n 1))
  | "divide" => c.pushVec (amdArith 0x5e (c.n 0) (c.n 1))
  | "gt" => c.pushVec (amdCmp 6 (c.n 0) (c.n 1))
  | "geq" => c.pushVec (amdCmp 5 (c.n 0) (c.n 1))
  | "lt" => c.pushVec (amdCmp 1 (c.n 0) (c.n 1))
  | "leq" => c.pushVec (amdCmp 2 (c.n 0) (c.n 1))
  | "eq" => c.pushVec (amdCmp 0 (c.n 0) (c.n 1))
  | "neq" => c.pushVec (amdCmp 4 (c.n 0) (c.n 1))
  | "and" => c.pushVec (amdLogic 0x54 (c.n 0) (c.n 1))
  | "or" => c.pushVec (amdLogic 0x56 (c.n 0) (c.n 1))
  | "xor" => c.pushVec (amdLogic 0x57 (c.n 0) (c.n 1))
  | "neg" =>
      (c.pushVec (amdMovsdLoad (c.n 1) 5 (8 * Frame.MINUS_ZERO.idx))).pushVec
        (amdLogic 0x57 (c.n 0) (c.n 1))
  | _ =>
      let c1 := if c.n 0 ≠ 0 then c.pushVec (amdMovapd 0 (c.n 0)) else c
      let c2 := { c1 with renamer := c1.renamer.reset }
      (c2.pushVec (amdMovRaxRbx (8 * p))).pushVec amdCallRax

/-- Source `AmdCompiler::ifelse`: the four-instruction mask/blend sequence. -/
def AmdCompiler.ifelse (c : AmdCompiler) : AmdCompiler :=
  (((c.pushVec (amdMovapd (c.n 3) (c.n 2))).pushVec
      (amdLogic 0x54 (c.n 0) (c.n 2))).pushVec
    (amdLogic 0x55 (c.n 3) (c.n 1))).pushVec
    (amdLogic 0x56 (c.n 0) (c.n 3))

/-- Source `AmdCompiler::load_xmm_indirect`: `ZERO` is synthesised by xor-self,
temporaries pop the scratch stack (the failed `pop` assertion is the Rust
panic), named slots load from `[rbp + 8·idx]`. -/
def AmdCompiler.load_xmm_indirect (c : AmdCompiler) (x : ℕ) (r : Word) :
    Except String AmdCompiler :=
  if r = Frame.ZERO then
    .ok (c.pushVec (amdLogic 0x57 (c.n x) (c.n x)))
  else if r.temp then
    match c.stack.pop r with
    | .error e => .error e
    | .ok (k, st') =>
        .ok (({ c with stack := st' }).pushVec (amdMovsdLoad (c.n x) 4 (8 * k)))
  else
    .ok (c.pushVec (amdMovsdLoad (c.n x) 5 (8 * r.idx)))

/-- Source `AmdCompiler::save_xmm_indirect`: temporaries push onto the scratch
stack, named slots store to `[rbp + 8·idx]`. -/
def AmdCompiler.save_xmm_indirect (c : AmdCompiler) (x : ℕ) (r : Word) :
    AmdCompiler :=
  if r.temp then
    ({ c with stack := (c.stack.push r).2 }).pushVec
      (amdMovsdStore 4 (8 * (c.stack.push r).1) (c.n x))
  else
    c.pushVec (amdMovsdStore 5 (8 * r.idx) (c.n x))

/-- Source `AmdCompiler::load_buffered`: a hit in the hold registers renames
instead of copying and empties the slot; otherwise fall through to the
indirect load. -/
def AmdCompiler.load_buffered (c : AmdCompiler) (x : ℕ) (r : Word) :
    Except String AmdCompiler :=
  match c.buf.findIdx? (fun b => b = some r) with
  | some k =>
      .ok { c with renamer := c.renamer.swap x (4 + k), buf := c.buf.set k none }
  | none => c.load_xmm_indirect x r

/-- Source `AmdCompiler::save_buffered`: park the accumulator in the first free
hold register by renaming; fall back to the direct save when all four are
occupied. -/
def AmdCompiler.save_buffered (c : AmdCompiler) (x : ℕ) (r : Word) :
    AmdCompiler :=
  match c.buf.findIdx? (fun b => b = none) with
  | some k =>
      { c with renamer := c.renamer.swap (4 + k) x, buf := c.buf.set k (some r) }
  | none => c.save_xmm_indirect x r

/-- Source `AmdCompiler::prologue`. -/
def AmdCompiler.prologue (c : AmdCompiler) (nbytes : ℕ) : AmdCompiler :=
  ((((c.pushVec [0x55]).pushVec [0x53]).pushVec
      [0x48, 0x89, 0xfd]).pushVec [0x48, 0x89, 0xd3]).pushVec
    ([0x48, 0x81, 0xec] ++ imm32 nbytes)

/-- Source `AmdCompiler::epilogue`. -/
def AmdCompiler.epilogue (c : AmdCompiler) (nbytes : ℕ) : AmdCompiler :=
  (((c.pushVec ([0x48, 0x81, 0xc4] ++ imm32 nbytes)).pushVec
      [0x5b]).pushVec [0x5d]).pushVec [0xc3]

/-- The save block after each computational instruction: a `Diff`
destination is stored to the frame, a bufferable one parked in a hold
register, a saveable one stored directly; each resets the accumulator
tracking to `ZERO` (the `if`s are sequential and test the updated `r`). -/
def AmdCompiler.afterInstr (isDiffW : Word → Bool)
    (saveable bufferable : List Word) (c : AmdCompiler) (dst : Word) :
    AmdCompiler × Word :=
  let s1 : AmdCompiler × Word :=
    if isDiffW dst then (c.save_xmm_indirect 0 dst, Frame.ZERO) else (c, dst)
  let s2 : AmdCompiler × Word :=
    if s1.2 ∈ bufferable then (s1.1.save_buffered 0 s1.2, Frame.ZERO) else s1
  if s2.2 ∈ saveable then (s2.1.save_xmm_indirect 0 s2.2, Frame.ZERO) else s2

/-- One instruction of `AmdCompiler::codegen`, carrying the accumulator
tracking register `r`.  For commutative `plus`/`times` with `y == r` the
operands swap; `y == r` renames `xmm1` onto the accumulator, `cond == r`
and `x2 == r` do the same for the ifelse inputs. -/
def AmdCompiler.codegenStep (isDiffW : Word → Bool)
    (saveable bufferable : List Word) (cr : AmdCompiler × Word)
    (instr : Instr) : Except String (AmdCompiler × Word) :=
  let c := cr.1
  let r := cr.2
  match instr with
  | .unary op x _dst p => do
      let c1 ← if r ≠ x then c.load_buffered 0 x else pure c
      let c2 := c1.op_code op p
      pure (AmdCompiler.afterInstr isDiffW saveable bufferable c2 _dst)
  | .binary op x y dst p => do
      let xy : Word × Word :=
        if (op = "plus" ∨ op = "times") ∧ y = r then (y, x) else (x, y)
      let c1 ← if xy.2 = r then
          pure { c with renamer := c.renamer.swap 1 0 }
        else
          c.load_buffered 1 xy.2
      let c2 ← if xy.1 ≠ r then c1.load_buffered 0 xy.1 else pure c1
      let c3 := c2.op_code op p
      pure (AmdCompiler.afterInstr isDiffW saveable bufferable c3 dst)
  | .ifElse x1 x2 cond dst => do
      let c1 ← if cond = r then
          pure { c with renamer := c.renamer.swap 2 0 }
        else
          c.load_buffered 2 cond
      let c2 ← if x2 = r then
          pure { c1 with renamer := c1.renamer.swap 1 0 }
        else
          c1.load_buffered 1 x2
      let c3 ← if x1 ≠ r then c2.load_buffered 0 x1 else pure c2
      let c4 := c3.ifelse
      pure (AmdCompiler.afterInstr isDiffW saveable bufferable c4 dst)
  | _ => pure (c, r)

/-- Source `AmdCompiler::codegen`: one pass over the instruction stream,
starting with the accumulator tracking `ZERO`. -/
def AmdCompiler.codegen (c : AmdCompiler) (prog : Program)
    (saveable bufferable : List Word) : Except String AmdCompiler :=
  (prog.code.foldlM
    (AmdCompiler.codegenStep prog.frame.isDiff saveable bufferable)
    (c, Frame.ZERO)).map Prod.fst

/-- Source `Compiler::compile for AmdCompiler`: analyse, run `codegen` once to
measure the scratch stack, clear only the machine-code buffer, emit the
prologue, run `codegen` again, emit the epilogue.  The hold buffer, stack
and renamer persist across the two passes exactly as in the source. -/
def amdCompile (prog : Program) : Except String (List ℕ) := do
  let events := analyzerEvents prog.code
  let saveable := find_saveable events
  let bufferable := find_bufferable events
  let c1 ← AmdCompiler.new.codegen prog saveable bufferable
  let c2 : AmdCompiler := { c1 with machineCode := [] }
  let n := 8 * c2.stack.cap
  let c3 := c2.prologue n
  let c4 ← c3.codegen prog saveable bufferable
  pure ((c4.epilogue n).machineCode)

/-- The two-instruction program refuting C2: `plus a b → t1` followed by
`minus c t1 → t2` (the lowering of `minus(c, plus(a, b))`); `a`, `b`, `c`
are named slots 4–6, `t1`, `t2` temporaries 7–8. -/
def c2prog : Program :=
  { code := [.binary "plus" ⟨4, 0, false⟩ ⟨5, 0, false⟩ ⟨7, 0, true⟩ 0,
             .binary "minus" ⟨6, 0, false⟩ ⟨7, 0, true⟩ ⟨8, 0, true⟩ 1],
    frame := ⟨[.const 0, .const 1, .const (-1), .const 0, .param "a" 1,
               .param "b" 1, .param "c" 1, .temp, .temp],
              [("a", 4), ("b", 5), ("c", 6)], []⟩ }

/-- C7: `Frame::alloc` on a named tag fails exactly when the name is
already in the name→index map (`Var`/`State`/`Param`/`Obs` panic with
"key already exists", `Diff` — which lives in the δ-decorated namespace —
with "diff key already exists", which still ends in the claimed phrase);
on a fresh name it appends the slot and returns a word whose index is the
previous slot count and whose version is 0; for `Temp` it pops the most
recently freed slot, if any, with the version bumped by one, and otherwise
appends a fresh temp slot. -/
theorem c7_frame_alloc_spec :
    (∀ (f : Frame) (s : String),
      (∃ e, f.alloc (.var s) = .error e ∧ endsWithMsg e "key already exists") ↔
        (f.named.lookup s).isSome) ∧
    (∀ (f : Frame) (s : String) (v : ℚ),
      (∃ e, f.alloc (.state s v) = .error e ∧ endsWithMsg e "key already exists") ↔
        (f.named.lookup s).isSome) ∧
    (∀ (f : Frame) (s : String) (v : ℚ),
      (∃ e, f.alloc (.param s v) = .error e ∧ endsWithMsg e "key already exists") ↔
        (f.named.lookup s).isSome) ∧
    (∀ (f : Frame) (s : String),
      (∃ e, f.alloc (.obs s) = .error e ∧ endsWithMsg e "key already exists") ↔
        (f.named.lookup s).isSome) ∧
    (∀ (f : Frame) (s : String),
      (∃ e, f.alloc (.diff s) = .error e ∧ endsWithMsg e "key already exists") ↔
        (f.named.lookup ("δ" ++ s)).isSome) ∧
    (∀ (f : Frame) (s : String),
      f.named.lookup s = none →
      f.alloc (.var s) = .ok (⟨f.words.length, 0, false⟩,
        ⟨f.words ++ [.var s], (s, f.words.length) :: f.named, f.freed⟩)) ∧
    (∀ (f : Frame) (s : String),
      f.named.lookup ("δ" ++ s) = none →
      f.alloc (.diff s) = .ok (⟨f.words.length, 0, false⟩,
        ⟨f.words ++ [.diff s], ("δ" ++ s, f.words.length) :: f.named, f.freed⟩)) ∧
    (∀ (f : Frame), f.freed = [] →
      f.alloc .temp =
        .ok (⟨f.words.length, 0, true⟩, { f with words := f.words ++ [.temp] })) ∧
    (∀ (f : Frame) (w : Word) (rest : List Word), f.freed = w :: rest →
      f.alloc .temp = .ok (⟨w.idx, w.ver + 1, true⟩, { f with freed := rest })) := by
  refine ⟨?_, ?_, ?_, ?_, ?_, ?_, ?_, ?_, ?_⟩
  · intro f s
    constructor
    · rintro ⟨e, he, -⟩
      simp only [Frame.alloc] at he
      by_cases h : (f.named.lookup s).isSome
      · exact h
      · simp [h] at he
    · intro h
      refine ⟨"key already exists", ?_, ⟨[], rfl⟩⟩
      simp [Frame.alloc, h]
  · intro f s v
    constructor
    · rintro ⟨e, he, -⟩
      simp only [Frame.alloc] at he
      by_cases h : (f.named.lookup s).isSome
      · exact h
      · simp [h] at he
    · intro h
      refine ⟨"key already exists", ?_, ⟨[], rfl⟩⟩
      simp [Frame.alloc, h]
  · intro f s v
    constructor
    · rintro ⟨e, he, -⟩
      simp only [Frame.alloc] at he
      by_cases h : (f.named.lookup s).isSome
      · exact h
      · simp [h] at he
    · intro h
      refine ⟨"key already exists", ?_, ⟨[], rfl⟩⟩
      simp [Frame.alloc, h]
  · intro f s
    constructor
    · rintro ⟨e, he, -⟩
      simp only [Frame.alloc] at he
      by_cases h : (f.named.lookup s).isSome
      · exact h
      · simp [h] at he
    · intro h
      refine ⟨"key already exists", ?_, ⟨[], rfl⟩⟩
      simp [Frame.alloc, h]
  · intro f s
    constructor
    · rintro ⟨e, he, -⟩
      simp only [Frame.alloc] at he
      by_cases h : (f.named.lookup ("δ" ++ s)).isSome
      · exact h
      · simp [h] at he
    · intro h
      refine ⟨"diff key already exists", ?_, ⟨"diff ".data, rfl⟩⟩
      simp [Frame.alloc, h]
  · intro f s h
    simp [Frame.alloc, h]
  · intro f s h
    simp [Frame.alloc, h]
  · intro f h
    simp [Frame.alloc, Frame.allocTemp, h]
  · intro f w rest h
    simp [Frame.alloc, Frame.allocTemp, h]

/-- Witness for C7 at concrete frames. -/
theorem c7_frame_alloc_spec_witness :
    (Frame.new.named.lookup "x" = none) ∧
    (Frame.new.alloc (.var "x") = .ok (⟨4, 0, false⟩,
      ⟨Frame.new.words ++ [.var "x"], [("x", 4)], []⟩)) ∧
    ({ Frame.new with freed := [⟨7, 1, true⟩] } : Frame).alloc .temp =
      .ok (⟨7, 2, true⟩, Frame.new) := by
  refine ⟨rfl, ?_, ?_⟩
  · have h := (c7_frame_alloc_spec.2.2.2.2.2.1) Frame.new "x" rfl
    simpa [Frame.new] using h
  · have h := (c7_frame_alloc_spec.2.2.2.2.2.2.2.2)
      { Frame.new with freed := [⟨7, 1, true⟩] } ⟨7, 1, true⟩ [] rfl
    simpa using h

/-- C8: `Renamer::swap(i, j)` copies `mapping[j]` into `mapping[i]` and
leaves `mapping[j]` unchanged: afterwards `get i` equals the old `get j`
and `get j` is unchanged.  Consequently swap is not a transposition
(`swap 0 1` on the identity over two registers yields `[1, 1]`, not
`[1, 0]`), not an involution (applying it twice does not restore the
identity), and it can make the mapping non-bijective (`get 0 = get 1`
while `0 ≠ 1`). -/
theorem c8_renamer_swap_overwrites :
    (∀ (m : Renamer) (i j : ℕ), i < m.mapping.length → j < m.mapping.length →
      (m.swap i j).get i = m.get j ∧ (m.swap i j).get j = m.get j) ∧
    ((Renamer.new 2).swap 0 1).mapping = [1, 1] ∧
    (((Renamer.new 2).swap 0 1).swap 0 1 ≠ Renamer.new 2) ∧
    (((Renamer.new 2).swap 0 1).get 0 = ((Renamer.new 2).swap 0 1).get 1 ∧
      (0 : ℕ) ≠ 1) := by
  refine ⟨?_, by decide, by decide, by decide, by decide⟩
  intro m i j hi hj
  constructor
  · simp [Renamer.swap, Renamer.get, List.getD_eq_getElem?_getD,
      List.getElem?_set, hi]
  · rcases eq_or_ne i j with hij | hij
    · subst hij
      simp [Renamer.swap, Renamer.get, List.getD_eq_getElem?_getD,
        List.getElem?_set, hi]
    · simp [Renamer.swap, Renamer.get, List.getD_eq_getElem?_getD,
        List.getElem?_set, hij]

/-- Witness for C8 at a concrete renamer and indices. -/
theorem c8_renamer_swap_overwrites_witness :
    ((Renamer.new 8).swap 2 5).get 2 = (Renamer.new 8).get 5 ∧
    ((Renamer.new 8).swap 2 5).get 5 = (Renamer.new 8).get 5 :=
  (c8_renamer_swap_overwrites.1 (Renamer.new 8) 2 5 (by decide) (by decide))

theorem mem_insertW {a c : Word} {s : List Word} :
    a ∈ insertW c s ↔ a = c ∨ a ∈ s := by
  unfold insertW
  split
  · constructor
    · exact fun h => Or.inr h
    · rintro (rfl | h) <;> assumption
  · simp [or_comm]

/-- Paired-fold invariant for C3: the bufferable candidate stack stays the
top part of the saveable candidate stack, so the bufferable set stays
inside the saveable set. -/
theorem bufStep_fold_sub :
    ∀ (es : List Event) (candB candS savB savS : List Word),
    (∃ t, candS = candB ++ t) → (∀ w, w ∈ savB → w ∈ savS) →
    (∃ t, (es.foldl saveStep (candS, savS)).1 = (es.foldl bufStep (candB, savB)).1 ++ t) ∧
    (∀ w, w ∈ (es.foldl bufStep (candB, savB)).2 →
      w ∈ (es.foldl saveStep (candS, savS)).2) := by
  intro es
  induction es with
  | nil =>
      intro candB candS savB savS hc hs
      exact ⟨hc, hs⟩
  | cons e es ih =>
      intro candB candS savB savS hc hs
      obtain ⟨t, rfl⟩ := hc
      cases e with
      | producer p =>
          simp only [List.foldl_cons, saveStep, bufStep]
          exact ih (p :: candB) (p :: (candB ++ t)) savB savS ⟨t, rfl⟩ hs
      | caller op =>
          by_cases hop : op ∈ transcendentalOps
          · simp only [List.foldl_cons, saveStep, bufStep, if_pos hop]
            exact ih [] (candB ++ t) savB savS ⟨candB ++ t, rfl⟩ hs
          · simp only [List.foldl_cons, saveStep, bufStep, if_neg hop]
            exact ih candB (candB ++ t) savB savS ⟨t, rfl⟩ hs
      | consumer c =>
          cases candB with
          | nil =>
              cases t with
              | nil =>
                  simp only [List.foldl_cons, saveStep, bufStep, List.nil_append]
                  exact ih [] [] savB savS ⟨[], rfl⟩ hs
              | cons h t' =>
                  simp only [List.foldl_cons, saveStep, bufStep, List.nil_append]
                  refine ih [] (h :: t') savB _ ⟨h :: t', rfl⟩ ?_
                  intro w hw
                  split
                  · exact mem_insertW.mpr (Or.inr (hs w hw))
                  · exact hs w hw
          | cons tB restB =>
              simp only [List.foldl_cons, saveStep, bufStep, List.cons_append]
              refine ih (tB :: restB) (tB :: (restB ++ t)) _ _ ⟨t, rfl⟩ ?_
              intro w hw
              by_cases hB : c ∈ restB
              · have hS : c ∈ restB ++ t := List.mem_append.mpr (Or.inl hB)
                simp only [if_pos hB] at hw
                simp only [if_pos hS]
                exact mem_insertW.mpr ((mem_insertW.mp hw).imp id (hs w))
              · simp only [if_neg hB] at hw
                split
                · exact mem_insertW.mpr (Or.inr (hs w hw))
                · exact hs w hw

/-- C3: every bufferable word of a program's event stream is saveable; the
two analyses differ only in `find_bufferable` clearing its candidate stack
on transcendental `Caller` events, which can only shrink the result. -/
theorem c3_bufferable_subset_saveable (code : List Instr) (w : Word)
    (h : w ∈ find_bufferable (analyzerEvents code)) :
    w ∈ find_saveable (analyzerEvents code) :=
  (bufStep_fold_sub (analyzerEvents code) [] [] [] [] ⟨[], rfl⟩
    (fun _ h => h)).2 w h

/-- Witness for C3: the word `⟨6,0⟩` is bufferable, hence saveable, in
`exampleCode`'s event stream. -/
theorem c3_bufferable_subset_saveable_witness :
    (⟨6, 0, true⟩ : Word) ∈ find_bufferable (analyzerEvents exampleCode) ∧
    (⟨6, 0, true⟩ : Word) ∈ find_saveable (analyzerEvents exampleCode) :=
  ⟨by decide, c3_bufferable_subset_saveable exampleCode ⟨6, 0, true⟩ (by decide)⟩

theorem prods_cons_producer (p : Word) (es : List Event) :
    prods (.producer p :: es) = p :: prods es := rfl

theorem prods_cons_consumer (c : Word) (es : List Event) :
    prods (.consumer c :: es) = prods es := rfl

theorem prods_cons_caller (op : String) (es : List Event) :
    prods (.caller op :: es) = prods es := rfl

theorem prods_append (l₁ l₂ : List Event) :
    prods (l₁ ++ l₂) = prods l₁ ++ prods l₂ :=
  List.filterMap_append _ _ _

theorem mem_prods {v : Word} {es : List Event} :
    v ∈ prods es ↔ Event.producer v ∈ es := by
  unfold prods
  rw [List.mem_filterMap]
  constructor
  · rintro ⟨e, he, hm⟩
    cases e <;> simp_all
  · intro h
    exact ⟨_, h, rfl⟩

theorem genSpec_cons_producer {cand : List Word} {es : List Event} {w p : Word} :
    GenSpec cand (.producer p :: es) w ↔ GenSpec (p :: cand) es w := by
  constructor
  · rintro ⟨l, r, heq, hmem⟩
    cases l with
    | nil => exact absurd (List.cons.inj heq).1 (by simp)
    | cons e₀ l' =>
        rw [List.cons_append] at heq
        obtain ⟨he₀, hes⟩ := List.cons.inj heq
        subst he₀
        rw [prods_cons_producer, List.reverse_cons, List.append_assoc] at hmem
        exact ⟨l', r, hes, hmem⟩
  · rintro ⟨l, r, heq, hmem⟩
    refine ⟨.producer p :: l, r, by rw [heq, List.cons_append], ?_⟩
    rw [prods_cons_producer, List.reverse_cons, List.append_assoc]
    exact hmem

theorem genSpec_cons_caller {cand : List Word} {es : List Event} {w : Word}
    {op : String} :
    GenSpec cand (.caller op :: es) w ↔ GenSpec cand es w := by
  constructor
  · rintro ⟨l, r, heq, hmem⟩
    cases l with
    | nil => exact absurd (List.cons.inj heq).1 (by simp)
    | cons e₀ l' =>
        rw [List.cons_append] at heq
        obtain ⟨he₀, hes⟩ := List.cons.inj heq
        subst he₀
        rw [prods_cons_caller] at hmem
        exact ⟨l', r, hes, hmem⟩
  · rintro ⟨l, r, heq, hmem⟩
    refine ⟨.caller op :: l, r, by rw [heq, List.cons_append], ?_⟩
    rw [prods_cons_caller]
    exact hmem

theorem genSpec_cons_consumer {cand : List Word} {es : List Event} {w c : Word} :
    GenSpec cand (.consumer c :: es) w ↔
      ((w = c ∧ w ∈ cand.tail) ∨ GenSpec cand es w) := by
  constructor
  · rintro ⟨l, r, heq, hmem⟩
    cases l with
    | nil =>
        have hc : Event.consumer c = Event.consumer w := (List.cons.inj heq).1
        have hw : w = c := by
          cases hc
          rfl
        left
        refine ⟨hw, ?_⟩
        simpa [prods] using hmem
    | cons e₀ l' =>
        rw [List.cons_append] at heq
        obtain ⟨he₀, hes⟩ := List.cons.inj heq
        subst he₀
        rw [prods_cons_consumer] at hmem
        exact Or.inr ⟨l', r, hes, hmem⟩
  · rintro (⟨rfl, hmem⟩ | ⟨l, r, heq, hmem⟩)
    · exact ⟨[], es, rfl, by simpa [prods] using hmem⟩
    · refine ⟨.consumer c :: l, r, by rw [heq, List.cons_append], ?_⟩
      rw [prods_cons_consumer]
      exact hmem

/-- The candidate stack of `find_saveable` only ever grows (consumers pop
and push back), so membership in the accumulated set is characterised by
`GenSpec` relative to the inherited stack. -/
theorem saveStep_fold_char :
    ∀ (es : List Event) (cand sav : List Word) (w : Word),
    (w ∈ (es.foldl saveStep (cand, sav)).2) ↔ (w ∈ sav ∨ GenSpec cand es w) := by
  intro es
  induction es with
  | nil =>
      intro cand sav w
      have : ¬ GenSpec cand [] w := by
        rintro ⟨l, r, heq, -⟩
        exact absurd heq.symm (by simp)
      simp [this]
  | cons e es ih =>
      intro cand sav w
      cases e with
      | producer p =>
          rw [List.foldl_cons,
            show saveStep (cand, sav) (.producer p) = (p :: cand, sav) from rfl,
            ih, genSpec_cons_producer]
      | caller op =>
          rw [List.foldl_cons,
            show saveStep (cand, sav) (.caller op) = (cand, sav) from rfl,
            ih, genSpec_cons_caller]
      | consumer c =>
          cases cand with
          | nil =>
              rw [List.foldl_cons,
                show saveStep (([] : List Word), sav) (.consumer c) = ([], sav) from rfl,
                ih, genSpec_cons_consumer]
              simp
          | cons tc restc =>
              rw [List.foldl_cons,
                show saveStep (tc :: restc, sav) (.consumer c)
                    = (tc :: restc, if c ∈ restc then insertW c sav else sav) from rfl,
                ih, genSpec_cons_consumer, List.tail_cons]
              by_cases hc : c ∈ restc
              · simp only [if_pos hc, mem_insertW]
                constructor
                · rintro ((rfl | hw) | h)
                  · exact Or.inr (Or.inl ⟨rfl, hc⟩)
                  · exact Or.inl hw
                  · exact Or.inr (Or.inr h)
                · rintro (hw | (⟨rfl, -⟩ | h))
                  · exact Or.inl (Or.inr hw)
                  · exact Or.inl (Or.inl rfl)
                  · exact Or.inr h
              · simp only [if_neg hc]
                constructor
                · rintro (hw | h)
                  · exact Or.inl hw
                  · exact Or.inr (Or.inr h)
                · rintro (hw | (⟨rfl, hmem⟩ | h))
                  · exact Or.inl hw
                  · exact absurd hmem hc
                  · exact Or.inr h

theorem tail_reverse_eq (L : List Word) : L.reverse.tail = L.dropLast.reverse := by
  induction L using List.reverseRecOn with
  | nil => rfl
  | append_singleton M b _ =>
      rw [List.reverse_append, List.dropLast_concat]
      rfl

theorem mem_dropLast_iff {a : Word} {L : List Word} :
    a ∈ L.dropLast ↔ ∃ A B, L = A ++ a :: B ∧ B ≠ [] := by
  constructor
  · intro h
    induction L using List.reverseRecOn with
    | nil => simp at h
    | append_singleton M b _ =>
        rw [List.dropLast_concat] at h
        obtain ⟨A, B', rfl⟩ := List.append_of_mem h
        exact ⟨A, B' ++ [b], by simp, by simp⟩
  · rintro ⟨A, B, rfl, hB⟩
    rw [List.dropLast_append_of_ne_nil A (List.cons_ne_nil a B)]
    cases B with
    | nil => exact absurd rfl hB
    | cons b B' =>
        rw [List.dropLast_cons₂]
        exact List.mem_append.mpr (Or.inr (List.mem_cons_self _ _))

/-- Splitting the produced-word list lifts to a splitting of the event
stream at a producer event. -/
theorem prods_split {w : Word} {l : List Event} {A B : List Word}
    (h : prods l = A ++ w :: B) :
    ∃ l₁ m, l = l₁ ++ .producer w :: m ∧ prods l₁ = A ∧ prods m = B := by
  induction l generalizing A with
  | nil =>
      have : (A ++ w :: B).length = 0 := by rw [← h]; rfl
      simp at this
  | cons e l ih =>
      cases e with
      | producer p =>
          rw [prods_cons_producer] at h
          cases A with
          | nil =>
              obtain ⟨rfl, hB⟩ := List.cons.inj h
              exact ⟨[], l, rfl, rfl, hB⟩
          | cons a A' =>
              obtain ⟨rfl, h'⟩ := List.cons.inj h
              obtain ⟨l₁, m, rfl, hA, hB⟩ := ih h'
              exact ⟨.producer p :: l₁, m, rfl,
                by rw [prods_cons_producer, hA], hB⟩
      | consumer cc =>
          rw [prods_cons_consumer] at h
          obtain ⟨l₁, m, rfl, hA, hB⟩ := ih h
          exact ⟨.consumer cc :: l₁, m, rfl,
            by rw [prods_cons_consumer, hA], hB⟩
      | caller op =>
          rw [prods_cons_caller] at h
          obtain ⟨l₁, m, rfl, hA, hB⟩ := ih h
          exact ⟨.caller op :: l₁, m, rfl,
            by rw [prods_cons_caller, hA], hB⟩

/-- C4: a word is in `Analyzer::find_saveable`'s result exactly when the
event stream contains a production of it, later some production (another
emission replacing the accumulator, possibly of the same word), and later
still a consumption of it — i.e. the stack algorithm (push on `Producer`;
on `Consumer` pop the top, record the consumed word if it is still on the
stack, push the popped candidate back) computes exactly this set. -/
theorem c4_saveable_characterization (code : List Instr) (w : Word) :
    w ∈ find_saveable (analyzerEvents code) ↔
      ∃ l m r, analyzerEvents code
          = l ++ .producer w :: (m ++ .consumer w :: r) ∧
        ∃ v, Event.producer v ∈ m := by
  unfold find_saveable
  rw [saveStep_fold_char]
  simp only [List.not_mem_nil, false_or]
  constructor
  · rintro ⟨l, r, heq, hmem⟩
    rw [List.append_nil, tail_reverse_eq, List.mem_reverse] at hmem
    obtain ⟨A, B, hAB, hB⟩ := mem_dropLast_iff.mp hmem
    obtain ⟨l₁, m, rfl, hA, hBm⟩ := prods_split hAB
    refine ⟨l₁, m, r, by rw [heq]; simp, ?_⟩
    obtain ⟨v, hv⟩ := List.exists_mem_of_ne_nil B hB
    refine ⟨v, mem_prods.mp ?_⟩
    rw [hBm]
    exact hv
  · rintro ⟨l₁, m, r, heq, v, hv⟩
    refine ⟨l₁ ++ .producer w :: m, r, by rw [heq]; simp, ?_⟩
    rw [List.append_nil, tail_reverse_eq, List.mem_reverse]
    apply mem_dropLast_iff.mpr
    refine ⟨prods l₁, prods m, ?_, ?_⟩
    · rw [prods_append, prods_cons_producer]
    · exact List.ne_nil_of_mem (mem_prods.mpr hv)

/-- Every failure of the `alloc_regs` fold carries the panic message
"temps out of stack order". -/
theorem regStep_fold_error_msg :
    ∀ (es : List Event) (st : RegState) (e : String),
    es.foldlM regStep st = .error e → e = "temps out of stack order" := by
  intro es
  induction es with
  | nil =>
      intro st e h
      exact absurd h (by simp [List.foldlM, pure, Except.pure])
  | cons ev es ih =>
      intro st e h
      rw [List.foldlM_cons] at h
      cases hstep : regStep st ev with
      | ok st' =>
          rw [hstep] at h
          exact ih st' e h
      | error msg =>
          rw [hstep] at h
          have hme : msg = e := by
            cases h
            rfl
          subst hme
          cases ev with
          | producer p =>
              by_cases hp : p.temp <;> simp [regStep, hp] at hstep
          | caller op =>
              by_cases hop : op ∈ transcendentalOps <;> simp [regStep, hop] at hstep
          | consumer c =>
              by_cases hc : c.temp
              · cases hl : st.lives with
                | nil => simp [regStep, hc, hl] at hstep
                | cons r rest =>
                    by_cases hrc : r = c
                    · simp [regStep, hc, hl, hrc] at hstep
                    · simp only [regStep, if_pos hc, hl, if_neg hrc] at hstep
                      cases hstep
                      rfl
              · simp [regStep, hc] at hstep

/-- The `alloc_regs` fold fails iff some consumer event of a temporary is
reached in a state whose live list is non-empty with a different word on
top. -/
theorem regStep_fold_error_char :
    ∀ (es : List Event) (st : RegState),
    (∃ e, es.foldlM regStep st = .error e) ↔
      ∃ l c r st', es = l ++ .consumer c :: r ∧ c.temp ∧
        l.foldlM regStep st = .ok st' ∧
        ∃ t rest, st'.lives = t :: rest ∧ t ≠ c := by
  intro es
  induction es with
  | nil =>
      intro st
      constructor
      · rintro ⟨e, h⟩
        exact absurd h (by simp [List.foldlM, pure, Except.pure])
      · rintro ⟨l, c, r, st', heq, -, -, -⟩
        exact absurd heq.symm (by simp)
  | cons ev es ih =>
      intro st
      rw [List.foldlM_cons]
      cases hstep : regStep st ev with
      | ok st₁ =>
          simp only [bind, Except.bind]
          constructor
          · rintro ⟨e, h⟩
            obtain ⟨l, c, r, st', heq, hc, hfold, t, rest, hlv, htc⟩ :=
              (ih st₁).mp ⟨e, h⟩
            refine ⟨ev :: l, c, r, st', by simp [heq], hc, ?_, t, rest, hlv, htc⟩
            rw [List.foldlM_cons, hstep]
            exact hfold
          · rintro ⟨l, c, r, st', heq, hc, hfold, t, rest, hlv, htc⟩
            cases l with
            | nil =>
                obtain ⟨hev, -⟩ := List.cons.inj heq
                subst hev
                have hst : st = st' := by
                  simpa [List.foldlM, pure, Except.pure] using hfold
                subst hst
                simp [regStep, hc, hlv, htc] at hstep
            | cons e₀ l' =>
                obtain ⟨he₀, hes⟩ := List.cons.inj heq
                subst he₀
                refine (ih st₁).mpr ⟨l', c, r, st', hes, hc, ?_, t, rest, hlv, htc⟩
                rw [List.foldlM_cons, hstep] at hfold
                exact hfold
      | error msg =>
          simp only [bind, Except.bind]
          constructor
          · intro _
            cases ev with
            | producer p =>
                by_cases hp : p.temp <;> simp [regStep, hp] at hstep
            | caller op =>
                by_cases hop : op ∈ transcendentalOps <;>
                  simp [regStep, hop] at hstep
            | consumer c =>
                by_cases hc : c.temp
                · cases hl : st.lives with
                  | nil => simp [regStep, hc, hl] at hstep
                  | cons r rest =>
                      by_cases hrc : r = c
                      · simp [regStep, hc, hl, hrc] at hstep
                      · exact ⟨[], c, es, st, rfl, hc,
                          by simp [List.foldlM, pure, Except.pure], r, rest, hl, hrc⟩
                · simp [regStep, hc] at hstep
          · intro _
            exact ⟨msg, rfl⟩

/-- C9: `Analyzer::alloc_regs` panics with "temps out of stack order"
exactly when a `Consumer` of a temporary is reached while the live list is
non-empty with a different word on top; a temporary consumed while the
live list is empty (e.g. after a transcendental `Caller` cleared it) is
silently ignored — the state, and in particular the depth map, is left
unchanged.  Concretely, clearing by `sin` makes the stream
`[Producer a, Caller "sin", Consumer a]` succeed with an empty map. -/
theorem c9_alloc_regs_panic_condition :
    (∀ es : List Event,
      (∃ e, alloc_regs es = .error e) ↔
        ∃ l c r st', es = l ++ .consumer c :: r ∧ c.temp = true ∧
          l.foldlM regStep ⟨[], [], 0⟩ = .ok st' ∧
          ∃ t rest, st'.lives = t :: rest ∧ t ≠ c) ∧
    (∀ (es : List Event) (e : String),
      alloc_regs es = .error e → e = "temps out of stack order") ∧
    (∀ (st : RegState) (c : Word), c.temp = true → st.lives = [] →
      regStep st (.consumer c) = .ok st) ∧
    alloc_regs [.producer ⟨9, 0, true⟩, .caller "sin", .consumer ⟨9, 0, true⟩]
      = .ok [] := by
  refine ⟨?_, ?_, ?_, rfl⟩
  · intro es
    unfold alloc_regs
    constructor
    · rintro ⟨e, h⟩
      refine (regStep_fold_error_char es ⟨[], [], 0⟩).mp ⟨e, ?_⟩
      cases hf : es.foldlM regStep ⟨[], [], 0⟩ with
      | ok st =>
          rw [hf] at h
          simp [Except.map] at h
      | error msg =>
          rw [hf] at h
          have hme : msg = e := by simpa [Except.map] using h
          subst hme
          rfl
    · intro hx
      obtain ⟨e, hf⟩ := (regStep_fold_error_char es ⟨[], [], 0⟩).mpr hx
      exact ⟨e, by rw [hf]; rfl⟩
  · intro es e h
    unfold alloc_regs at h
    cases hf : es.foldlM regStep ⟨[], [], 0⟩ with
    | ok st =>
        rw [hf] at h
        simp [Except.map] at h
    | error msg =>
        rw [hf] at h
        have hme : msg = e := by simpa [Except.map] using h
        subst hme
        exact regStep_fold_error_msg es ⟨[], [], 0⟩ msg hf
  · intro st c hc hl
    rw [regStep, if_pos hc, hl]

/-- C1 (failing part): the ARM backend's emission for `and`, `or` and
`xor` does not compute the interpreter's `Code::and`/`Code::or`/
`Code::xor`.  The emitted instructions name `v0` for both sources, so
`and`/`or` return `d0` unchanged — independent of the second operand
`d1` — and `eor v0.8b, v0.8b, v0.8b` zeroes `d0` outright; the
interpreter's functions return ±1.0 (never +0.0) and genuinely depend on
both operands.  On `xor(1.0, 1.0)` the interpreter stores −1.0 while the
ARM-emitted code leaves +0.0 (bit pattern 0) in the accumulator. -/
theorem c1_arm_logic_ops_diverge_from_interpreter :
    (∀ (st : ArmState) (p : ℕ), (armOpCode st "and" p).1 = [.andv 0 0 0]) ∧
    (∀ (st : ArmState) (p : ℕ), (armOpCode st "or" p).1 = [.orrv 0 0 0]) ∧
    (∀ (st : ArmState) (p : ℕ), (armOpCode st "xor" p).1 = [.eorv 0 0 0]) ∧
    (∀ regs : ℕ → ℕ, ∃ f, armLogicSem (.eorv 0 0 0) regs = some f ∧ f 0 = 0) ∧
    (∀ regs : ℕ → ℕ, ∃ f, armLogicSem (.andv 0 0 0) regs = some f ∧
      f 0 = regs 0) ∧
    (∀ regs : ℕ → ℕ, ∃ f, armLogicSem (.orrv 0 0 0) regs = some f ∧
      f 0 = regs 0) ∧
    (∀ x y : ℚ, Code.xor x y = 1 ∨ Code.xor x y = -1) ∧
    byteCodeRun [.binary Code.xor 4 5 6] [0, 1, -1, 0, 1, 1, 0]
      = [0, 1, -1, 0, 1, 1, -1] ∧
    Code.and 1 1 = 1 ∧ Code.and 1 (-1) = -1 := by
  refine ⟨fun st p => rfl, fun st p => rfl, fun st p => rfl, ?_, ?_, ?_, ?_,
    ?_, ?_, ?_⟩
  · intro regs
    refine ⟨_, rfl, ?_⟩
    show (if (0 : ℕ) = 0 then Nat.xor (regs 0) (regs 0) else regs 0) = 0
    rw [if_pos rfl]
    exact Nat.xor_self (regs 0)
  · intro regs
    refine ⟨_, rfl, ?_⟩
    show (if (0 : ℕ) = 0 then Nat.land (regs 0) (regs 0) else regs 0) = regs 0
    rw [if_pos rfl]
    have h : regs 0 &&& regs 0 = regs 0 := by
      apply Nat.eq_of_testBit_eq
      intro i
      simp [Nat.testBit_and]
    exact h
  · intro regs
    refine ⟨_, rfl, ?_⟩
    show (if (0 : ℕ) = 0 then Nat.lor (regs 0) (regs 0) else regs 0) = regs 0
    rw [if_pos rfl]
    have h : regs 0 ||| regs 0 = regs 0 := by
      apply Nat.eq_of_testBit_eq
      intro i
      simp [Nat.testBit_or]
    exact h
  · intro x y
    unfold Code.xor
    split
    · exact Or.inl rfl
    · exact Or.inr rfl
  · norm_num [byteCodeRun, fastStep, Code.xor, List.foldl, List.set, List.getD]
  · norm_num [Code.and]
  · norm_num [Code.and]

/-- C10: in the ARM backend, `save_xmm_indirect` emits a store if and only
if the destination index is greater than 2, so the reserved slots 0, 1
and 2 (`ZERO`, `ONE`, `MINUS_ONE`) are never stored to, while slot 3
(`MINUS_ZERO`) is not protected by this guard. -/
theorem c10_arm_save_guard :
    (∀ (x : ℕ) (r : Word), armSaveXmmIndirect x r ≠ [] ↔ r.idx > 2) ∧
    armSaveXmmIndirect 0 Frame.ZERO = [] ∧
    armSaveXmmIndirect 0 Frame.ONE = [] ∧
    armSaveXmmIndirect 0 Frame.MINUS_ONE = [] ∧
    Frame.MINUS_ZERO.idx = 3 ∧
    armSaveXmmIndirect 0 Frame.MINUS_ZERO = [.strD 0 24] := by
  refine ⟨?_, rfl, rfl, rfl, rfl, rfl⟩
  intro x r
  unfold armSaveXmmIndirect
  split
  · simpa
  · next h => simpa using h

/-- Witness for C10: a store for index 5 (emission non-empty via the
theorem's iff). -/
theorem c10_arm_save_guard_witness :
    armSaveXmmIndirect 1 ⟨5, 0, false⟩ ≠ [] :=
  (c10_arm_save_guard.1 1 ⟨5, 0, false⟩).mpr (by decide)

theorem alloc_ok_words {f : Frame} {t : WordType} {w : Word} {f' : Frame}
    (h : f.alloc t = .ok (w, f')) (ht : t ≠ .temp) :
    f'.words = f.words ++ [t] := by
  cases t with
  | temp => exact absurd rfl ht
  | const v =>
      simp only [Frame.alloc] at h
      cases h
      rfl
  | var s =>
      simp only [Frame.alloc] at h
      split at h
      · cases h
      · cases h
        rfl
  | state s v =>
      simp only [Frame.alloc] at h
      split at h
      · cases h
      · cases h
        rfl
  | param s v =>
      simp only [Frame.alloc] at h
      split at h
      · cases h
      · cases h
        rfl
  | obs s =>
      simp only [Frame.alloc] at h
      split at h
      · cases h
      · cases h
        rfl
  | diff s =>
      simp only [Frame.alloc] at h
      split at h
      · cases h
      · cases h
        rfl

theorem allocSeq_ok_words :
    ∀ (ts : List WordType) (f f' : Frame),
    allocSeq f ts = .ok f' → (∀ t ∈ ts, t ≠ .temp) →
    f'.words = f.words ++ ts := by
  intro ts
  induction ts with
  | nil =>
      intro f f' h _
      have hf : f = f' := by
        simpa [allocSeq, List.foldlM, pure, Except.pure] using h
      simp [hf]
  | cons t ts ih =>
      intro f f' h hnt
      rw [allocSeq, List.foldlM_cons] at h
      cases halloc : f.alloc t with
      | error e =>
          rw [halloc] at h
          simp [Except.map, bind, Except.bind] at h
      | ok wf =>
          obtain ⟨w, f₁⟩ := wf
          rw [halloc] at h
          simp only [Except.map, bind, Except.bind] at h
          have h₁ : allocSeq f₁ ts = .ok f' := by
            rw [allocSeq]
            exact h
          have hw : f₁.words = f.words ++ [t] :=
            alloc_ok_words halloc (hnt t (List.mem_cons_self _ _))
          rw [ih f₁ f' h₁ (fun x hx => hnt x (List.mem_cons_of_mem _ hx)), hw,
            List.append_assoc]
          rfl

theorem sliceCopy_length {mem src : List ℚ} {s : ℕ}
    (h : s + src.length ≤ mem.length) :
    (sliceCopy mem s src).length = mem.length := by
  simp only [sliceCopy, List.length_append, List.length_take, List.length_drop]
  omega

theorem sliceCopy_getElem?_of_lt {mem src : List ℚ} {s i : ℕ}
    (hs : s ≤ mem.length) (hi : i < s) :
    (sliceCopy mem s src)[i]? = mem[i]? := by
  unfold sliceCopy
  have hlen : (mem.take s).length = s := by
    rw [List.length_take]
    omega
  rw [List.getElem?_append,
    if_pos (by simp only [List.length_append, hlen]; omega :
      i < (mem.take s ++ src).length),
    List.getElem?_append, if_pos (by omega : i < (mem.take s).length),
    List.getElem?_take, if_pos hi]

theorem sliceCopy_getElem?_of_ge {mem src : List ℚ} {s i : ℕ}
    (hs : s + src.length ≤ mem.length) (hi : s + src.length ≤ i) :
    (sliceCopy mem s src)[i]? = mem[i]? := by
  unfold sliceCopy
  have hlen : (mem.take s).length = s := by
    rw [List.length_take]
    omega
  rw [List.getElem?_append,
    if_neg (by simp only [List.length_append, hlen]; omega :
      ¬ i < (mem.take s ++ src).length),
    List.getElem?_drop, List.length_append, hlen]
  congr 1
  omega

theorem sliceCopy_getElem?_inside {mem src : List ℚ} {s i : ℕ}
    (hs : s ≤ mem.length) (h₁ : s ≤ i) (h₂ : i < s + src.length) :
    (sliceCopy mem s src)[i]? = src[i - s]? := by
  unfold sliceCopy
  have hlen : (mem.take s).length = s := by
    rw [List.length_take]
    omega
  rw [List.getElem?_append,
    if_pos (by simp only [List.length_append, hlen]; omega :
      i < (mem.take s ++ src).length),
    List.getElem?_append, if_neg (by omega : ¬ i < (mem.take s).length),
    hlen]

theorem sliceCopy_drop_take {mem src : List ℚ} {s : ℕ}
    (h : s + src.length ≤ mem.length) :
    ((sliceCopy mem s src).drop s).take src.length = src := by
  unfold sliceCopy
  have hlen : (mem.take s).length = s := by
    rw [List.length_take]
    omega
  rw [List.append_assoc]
  obtain ⟨A, hA⟩ : ∃ A, mem.take s = A := ⟨_, rfl⟩
  rw [hA] at hlen
  rw [hA, ← hlen, List.drop_left]
  exact List.take_left src _

/-- The slot layout produced by `Program::new`: four reserved constants,
the independent variable, the states, their derivatives, the parameters. -/
theorem programNewFrame_layout {iv : String} {states params : List (String × ℚ)}
    {f : Frame} (h : programNewFrame iv states params = .ok f) :
    f.words = .const 0 :: .const 1 :: .const (-1) :: .const 0 :: .var iv ::
      (states.map (fun v => WordType.state v.1 v.2) ++
        (states.map (fun v => WordType.diff v.1) ++
          params.map (fun v => WordType.param v.1 v.2))) := by
  have hw := allocSeq_ok_words _ _ _ h ?_
  · simpa [Frame.new, List.append_assoc] using hw
  · intro t ht
    simp only [List.mem_append, List.mem_map, List.mem_singleton] at ht
    rcases ht with ((rfl | ⟨a, -, rfl⟩) | ⟨a, -, rfl⟩) | ⟨a, -, rfl⟩ <;> simp

/-- Derived offsets of a `Program::new` frame with at least one state:
states start at index 5 (right after the `Var` slot at index 4), the
derivatives follow them, and the category counts match the model. -/
theorem programNewFrame_offsets {iv : String} {sv : String × ℚ}
    {sts params : List (String × ℚ)} {f : Frame}
    (h : programNewFrame iv (sv :: sts) params = .ok f) :
    f.firstState = some 5 ∧
    f.words[4]? = some (.var iv) ∧
    f.countStates = sts.length + 1 ∧
    f.firstDiff = some (5 + (sts.length + 1)) ∧
    f.countDiffs = sts.length + 1 ∧
    f.firstParam = Option.map (· + (5 + 2 * (sts.length + 1)))
        ((params.map (fun v => WordType.param v.1 v.2)).findIdx?
          WordType.isParam) ∧
    f.countParams = params.length ∧
    f.words.length = 5 + 2 * (sts.length + 1) + params.length := by
  have hw := programNewFrame_layout h
  have hw' : f.words
      = [.const 0, .const 1, .const (-1), .const 0, .var iv] ++
        ((sv :: sts).map (fun v => WordType.state v.1 v.2) ++
          ((sv :: sts).map (fun v => WordType.diff v.1) ++
            params.map (fun v => WordType.param v.1 v.2))) := hw
  refine ⟨?_, ?_, ?_, ?_, ?_, ?_, ?_, ?_⟩
  · rw [Frame.firstState, hw']
    rw [List.findIdx?_append]
    have h₁ : List.findIdx? WordType.isState
        [WordType.const 0, .const 1, .const (-1), .const 0, .var iv] = none := by
      rw [List.findIdx?_eq_none_iff]
      intro x hx
      simp only [List.mem_cons, List.not_mem_nil, or_false] at hx
      rcases hx with rfl | rfl | rfl | rfl | rfl <;> rfl
    rw [h₁, Option.none_or, List.map_cons, List.cons_append,
      List.findIdx?_cons]
    rfl
  · rw [hw']
    rfl
  · rw [Frame.countStates, hw']
    simp only [List.filter_append, List.filter_map, List.length_append,
      List.length_map]
    have e₁ : List.filter WordType.isState
        [WordType.const 0, .const 1, .const (-1), .const 0, .var iv] = [] := rfl
    have e₂ : List.filter (WordType.isState ∘ fun v : String × ℚ =>
        WordType.state v.1 v.2) (sv :: sts) = sv :: sts :=
      List.filter_eq_self.mpr (fun a _ => rfl)
    have e₃ : List.filter (WordType.isState ∘ fun v : String × ℚ =>
        WordType.diff v.1) (sv :: sts) = [] := by
      rw [List.filter_eq_nil_iff]
      intro a _
      simp [WordType.isState, Function.comp]
    have e₄ : List.filter (WordType.isState ∘ fun v : String × ℚ =>
        WordType.param v.1 v.2) params = [] := by
      rw [List.filter_eq_nil_iff]
      intro a _
      simp [WordType.isState, Function.comp]
    rw [e₁, e₂, e₃, e₄]
    simp
  · rw [Frame.firstDiff, hw']
    rw [List.findIdx?_append]
    have h₁ : List.findIdx? WordType.isDiff
        [WordType.const 0, .const 1, .const (-1), .const 0, .var iv] = none := by
      rw [List.findIdx?_eq_none_iff]
      intro x hx
      simp only [List.mem_cons, List.not_mem_nil, or_false] at hx
      rcases hx with rfl | rfl | rfl | rfl | rfl <;> rfl
    rw [h₁, Option.none_or, List.findIdx?_append]
    have h₂ : List.findIdx? WordType.isDiff
        ((sv :: sts).map (fun v => WordType.state v.1 v.2)) = none := by
      rw [List.findIdx?_map, List.findIdx?_eq_none_iff]
      intro x _
      rfl
    rw [h₂, Option.none_or, List.findIdx?_append]
    simp only [List.length_cons, List.length_map]
    rw [List.map_cons, List.findIdx?_cons]
    simp [WordType.isDiff, Option.or]
    omega
  · rw [Frame.countDiffs, hw']
    simp only [List.filter_append, List.filter_map, List.length_append,
      List.length_map]
    have e₁ : List.filter WordType.isDiff
        [WordType.const 0, .const 1, .const (-1), .const 0, .var iv] = [] := rfl
    have e₂ : List.filter (WordType.isDiff ∘ fun v : String × ℚ =>
        WordType.state v.1 v.2) (sv :: sts) = [] := by
      rw [List.filter_eq_nil_iff]
      intro a _
      simp [WordType.isDiff, Function.comp]
    have e₃ : List.filter (WordType.isDiff ∘ fun v : String × ℚ =>
        WordType.diff v.1) (sv :: sts) = sv :: sts :=
      List.filter_eq_self.mpr (fun a _ => rfl)
    have e₄ : List.filter (WordType.isDiff ∘ fun v : String × ℚ =>
        WordType.param v.1 v.2) params = [] := by
      rw [List.filter_eq_nil_iff]
      intro a _
      simp [WordType.isDiff, Function.comp]
    rw [e₁, e₂, e₃, e₄]
    simp
  · rw [Frame.firstParam, hw']
    rw [List.findIdx?_append]
    have h₁ : List.findIdx? WordType.isParam
        [WordType.const 0, .const 1, .const (-1), .const 0, .var iv] = none := by
      rw [List.findIdx?_eq_none_iff]
      intro x hx
      simp only [List.mem_cons, List.not_mem_nil, or_false] at hx
      rcases hx with rfl | rfl | rfl | rfl | rfl <;> rfl
    rw [h₁, Option.none_or, List.findIdx?_append]
    have h₂ : List.findIdx? WordType.isParam
        ((sv :: sts).map (fun v => WordType.state v.1 v.2)) = none := by
      rw [List.findIdx?_map, List.findIdx?_eq_none_iff]
      intro x _
      rfl
    rw [h₂, Option.none_or, List.findIdx?_append]
    have h₃ : List.findIdx? WordType.isParam
        ((sv :: sts).map (fun v => WordType.diff v.1)) = none := by
      rw [List.findIdx?_map, List.findIdx?_eq_none_iff]
      intro x _
      rfl
    rw [h₃, Option.none_or, Option.map_map, Option.map_map]
    congr 1
    funext i
    simp only [Function.comp, List.length_map, List.length_cons,
      List.length_nil]
    omega
  · rw [Frame.countParams, hw']
    simp only [List.filter_append, List.filter_map, List.length_append,
      List.length_map]
    have e₁ : List.filter WordType.isParam
        [WordType.const 0, .const 1, .const (-1), .const 0, .var iv] = [] := rfl
    have e₂ : List.filter (WordType.isParam ∘ fun v : String × ℚ =>
        WordType.state v.1 v.2) (sv :: sts) = [] := by
      rw [List.filter_eq_nil_iff]
      intro a _
      simp [WordType.isParam, Function.comp]
    have e₃ : List.filter (WordType.isParam ∘ fun v : String × ℚ =>
        WordType.diff v.1) (sv :: sts) = [] := by
      rw [List.filter_eq_nil_iff]
      intro a _
      simp [WordType.isParam, Function.comp]
    have e₄ : List.filter (WordType.isParam ∘ fun v : String × ℚ =>
        WordType.param v.1 v.2) params = params :=
      List.filter_eq_self.mpr (fun a _ => rfl)
    rw [e₁, e₂, e₃, e₄]
    simp
  · rw [hw']
    simp only [List.length_append, List.length_cons, List.length_map,
      List.length_nil]
    omega

/-- A slice strictly below the copied region is unchanged by `sliceCopy`. -/
theorem sliceCopy_segment_below {M src : List ℚ} {s s₂ len : ℕ}
    (hreg : s₂ + len ≤ s) (hs : s ≤ M.length) :
    ((sliceCopy M s src).drop s₂).take len = (M.drop s₂).take len := by
  apply List.ext_getElem?
  intro j
  rw [List.getElem?_take, List.getElem?_take]
  by_cases hj : j < len
  · rw [if_pos hj, if_pos hj, List.getElem?_drop, List.getElem?_drop]
    exact sliceCopy_getElem?_of_lt hs (by omega)
  · rw [if_neg hj, if_neg hj]

/-- C6: for a frame laid out by `Program::new` (with at least one state),
`Runnable::call` writes `t` to slot `first_state − 1` — which is the `Var`
slot, allocated immediately before the states — copies `u` over the
contiguous `State` region and `p` over the contiguous `Param` region,
invokes the backend on exactly that memory, and reads `du` back from the
contiguous `Diff` region; every other slot of the pre-run memory is
untouched by the host. -/
theorem c6_runnable_call_contract
    (runF : List ℚ → List ℚ) (iv : String) (sv : String × ℚ)
    (sts params : List (String × ℚ)) (f : Frame) (mem u p : List ℚ) (t : ℚ)
    (hf : programNewFrame iv (sv :: sts) params = .ok f)
    (hmem : mem.length = f.words.length)
    (hu : u.length = f.countStates)
    (hp : p.length = f.countParams) :
    f.firstState = some 5 ∧
    f.words[4]? = some (.var iv) ∧
    f.firstDiff = some (5 + (sts.length + 1)) ∧
    (params ≠ [] → f.firstParam = some (5 + 2 * (sts.length + 1))) ∧
    runnableCall runF mem 5 (5 + 2 * (sts.length + 1)) (5 + (sts.length + 1))
        (sts.length + 1) u p t
      = (((runF (preRunMem mem u p t (sts.length + 1))).drop
            (5 + (sts.length + 1))).take (sts.length + 1),
         runF (preRunMem mem u p t (sts.length + 1))) ∧
    (preRunMem mem u p t (sts.length + 1))[4]? = some t ∧
    ((preRunMem mem u p t (sts.length + 1)).drop 5).take (sts.length + 1)
      = u ∧
    ((preRunMem mem u p t (sts.length + 1)).drop
        (5 + 2 * (sts.length + 1))).take params.length = p ∧
    (∀ i, i ≠ 4 → ¬(5 ≤ i ∧ i < 5 + (sts.length + 1)) →
      ¬(5 + 2 * (sts.length + 1) ≤ i ∧
        i < 5 + 2 * (sts.length + 1) + params.length) →
      (preRunMem mem u p t (sts.length + 1))[i]? = mem[i]?) := by
  obtain ⟨hfs, hvar, hcs, hfd, hcd, hfp, hcp, hwl⟩ := programNewFrame_offsets hf
  have hlen : mem.length = 5 + 2 * (sts.length + 1) + params.length := by
    rw [hmem, hwl]
  have hu' : u.length = sts.length + 1 := by rw [hu, hcs]
  have hp' : p.length = params.length := by rw [hp, hcp]
  have hm1 : (mem.set 4 t).length = mem.length := List.length_set _ _ _
  have hinner : 5 + u.length ≤ (mem.set 4 t).length := by
    omega
  have hm2 : (sliceCopy (mem.set 4 t) 5 u).length = mem.length := by
    rw [sliceCopy_length hinner, hm1]
  have houter : (5 + 2 * (sts.length + 1)) + p.length
      ≤ (sliceCopy (mem.set 4 t) 5 u).length := by
    omega
  refine ⟨hfs, hvar, hfd, ?_, rfl, ?_, ?_, ?_, ?_⟩
  · intro hne
    cases params with
    | nil => exact absurd rfl hne
    | cons q qs =>
        rw [hfp, List.map_cons, List.findIdx?_cons]
        simp [WordType.isParam]
  · rw [preRunMem,
      sliceCopy_getElem?_of_lt (by omega) (by omega),
      sliceCopy_getElem?_of_lt (by omega) (by omega),
      List.getElem?_set_self (by omega)]
  · rw [preRunMem,
      sliceCopy_segment_below (by omega) (by omega)]
    rw [← hu']
    exact sliceCopy_drop_take (by omega)
  · rw [preRunMem, ← hp']
    exact sliceCopy_drop_take (by omega)
  · intro i hi4 hiS hiP
    rw [preRunMem]
    by_cases h1 : i < 5 + 2 * (sts.length + 1)
    · rw [sliceCopy_getElem?_of_lt (by omega) h1]
      by_cases h2 : i < 5
      · rw [sliceCopy_getElem?_of_lt (by omega) h2,
          List.getElem?_set_ne (by omega : (4 : ℕ) ≠ i)]
      · rw [sliceCopy_getElem?_of_ge (by omega) (by omega),
          List.getElem?_set_ne (by omega : (4 : ℕ) ≠ i)]
    · rw [sliceCopy_getElem?_of_ge (by omega) (by omega),
        sliceCopy_getElem?_of_ge (by omega) (by omega),
        List.getElem?_set_ne (by omega : (4 : ℕ) ≠ i)]

/-- Witness for C6 on a one-state, one-parameter model: `t = 3` lands in
slot 4 and `u = [9]` in the state region. -/
theorem c6_runnable_call_contract_witness :
    (preRunMem [0, 1, -1, 0, 0, 1, 0, 2] [9] [7] 3 1)[4]? = some 3 ∧
    ((preRunMem [0, 1, -1, 0, 0, 1, 0, 2] [9] [7] 3 1).drop 5).take 1 = [9] :=
  have h := c6_runnable_call_contract id "t" ("x", 1) [] [("a", 2)]
    ⟨[.const 0, .const 1, .const (-1), .const 0, .var "t", .state "x" 1,
      .diff "x", .param "a" 2],
     [("a", 7), ("δx", 6), ("x", 5), ("t", 4)], []⟩
    [0, 1, -1, 0, 0, 1, 0, 2] [9] [7] 3 rfl rfl rfl rfl
  ⟨h.2.2.2.2.2.1, h.2.2.2.2.2.2.1⟩

theorem OProg.free_code (pr : OProg) (r : ℕ) : (pr.free r).code = pr.code := by
  unfold OProg.free
  split <;> rfl

/-- C5 (amended): `Expr::lower_binary` applies no `times`-by-`MINUS_ONE`
peephole.  `Const(−1)` binds to the reserved `Reg(2)` without emitting any
`Num` marker (so there is no marker to pop), and `times(name, −1)` lowers
to an ordinary binary `times` instruction whose second operand is
`Reg(2)`, with no `Unary neg` anywhere. -/
theorem c5_lower_binary_no_peephole (prog : OProg) (name : String) (ra : ℕ)
    (h : prog.reg name = some ra) :
    ∃ dst p prog',
      olower (.tree "times" [.varE name, .constE (-1)]) prog
        = .ok (dst, prog') ∧
      prog'.code = prog.code ++ [.varMark name ra, .op "times" ra 2 dst p] ∧
      (∀ i ∈ prog'.code.drop prog.code.length,
        i.isNum = false ∧ i.isOpNamed "neg" = false) := by
  refine ⟨((prog.push (.varMark name ra)).allocTemp).1, prog.vt.indexOf "times",
    (((((prog.push (.varMark name ra)).allocTemp).2).pushOp "times" ra 2
        (((prog.push (.varMark name ra)).allocTemp).1)).free ra).free 2,
    ?_, ?_, ?_⟩
  · simp only [olower]
    rw [h]
    norm_num [bind, Except.bind, binaryOpNames, pure, Except.pure]
  · simp [OProg.free_code, OProg.pushOp, OProg.push, OProg.allocTemp,
      List.append_assoc]
  · intro i hi
    simp only [OProg.free_code, OProg.pushOp, OProg.push, OProg.allocTemp,
      List.append_assoc] at hi
    rw [List.drop_left] at hi
    simp only [List.cons_append, List.nil_append, List.mem_cons,
      List.not_mem_nil, or_false] at hi
    rcases hi with rfl | rfl
    · exact ⟨rfl, rfl⟩
    · exact ⟨rfl, rfl⟩

/-- C5 (counterexample): in a concrete program whose frame binds `a` to
`Reg(3)`, lowering `times(a, Const(−1))` emits a `Var` marker followed by
a *binary* `times` instruction on `Reg(2)` (`MINUS_ONE`); no `Num` marker
is emitted for the constant (so none can be popped) and no `neg`
instruction appears — refuting the claimed peephole. -/
theorem c5_counterexample_times_minus_one :
    olower (.tree "times" [.varE "a", .constE (-1)])
        ⟨[], ⟨[.const 0, .const 1, .const (-1), .var "a"], [("a", 3)], []⟩, []⟩
      = .ok (4, ⟨[.varMark "a" 3, .op "times" 3 2 4 0],
          ⟨[.const 0, .const 1, .const (-1), .var "a", .temp],
            [("a", 3)], []⟩, ["times"]⟩) ∧
    ((OInstr.varMark "a" 3).isNum = false ∧
      (OInstr.varMark "a" 3).isOpNamed "neg" = false ∧
      (OInstr.op "times" 3 2 4 0).isNum = false ∧
      (OInstr.op "times" 3 2 4 0).isOpNamed "neg" = false) := by
  constructor
  · simp only [olower]
    norm_num [OProg.reg, OProg.push, OProg.pushOp, OProg.allocTemp,
      OFrame.allocTemp, OProg.allocConst, OFrame.allocConst, OProg.free,
      bind, Except.bind, binaryOpNames, pure, Except.pure, List.lookup,
      List.indexOf, List.findIdx, List.findIdx.go]
    simp
  · exact ⟨rfl, rfl, rfl, rfl⟩

/-- Witness for C5's amended theorem at a concrete program. -/
theorem c5_lower_binary_no_peephole_witness :
    ∃ dst p prog',
      olower (.tree "times" [.varE "a", .constE (-1)])
          ⟨[], ⟨[.const 0, .const 1, .const (-1), .var "a"], [("a", 3)], []⟩,
            []⟩
        = .ok (dst, prog') ∧
      prog'.code = ([] : List OInstr)
          ++ [.varMark "a" 3, .op "times" 3 2 dst p] ∧
      (∀ i ∈ prog'.code.drop ([] : List OInstr).length,
        i.isNum = false ∧ i.isOpNamed "neg" = false) :=
  c5_lower_binary_no_peephole
    ⟨[], ⟨[.const 0, .const 1, .const (-1), .var "a"], [("a", 3)], []⟩, []⟩
    "a" 3 rfl

/-- C2 (failing): the two `codegen` passes of `AmdCompiler::compile` are
*not* byte-identical on every program.  On `c2prog`, the `minus` whose
second operand is the previous result triggers `renamer.swap(1, 0)`; the
renamer is never reset before the second pass, so pass two emits
`movsd xmm0, [rbp+0x28]` (`f2 0f 10 45 28`) where pass one emitted
`movsd xmm1, [rbp+0x28]` (`f2 0f 10 4d 28`), and the pass-two bytes after
the prologue differ from the pass-one bytes (the emitted code is also
wrong: `addsd xmm0, xmm0`).  The persisted renamer is likewise visible as
a non-identity mapping after pass one. -/
theorem c2_two_pass_codegen_not_deterministic :
    ∃ c1 c4 : AmdCompiler,
      AmdCompiler.new.codegen c2prog
          (find_saveable (analyzerEvents c2prog.code))
          (find_bufferable (analyzerEvents c2prog.code)) = .ok c1 ∧
      (({ c1 with machineCode := [] }).prologue
            (8 * c1.stack.cap)).codegen c2prog
          (find_saveable (analyzerEvents c2prog.code))
          (find_bufferable (analyzerEvents c2prog.code)) = .ok c4 ∧
      c4.machineCode.drop
          ((({ c1 with machineCode := [] }).prologue
            (8 * c1.stack.cap)).machineCode.length)
        ≠ c1.machineCode ∧
      c1.renamer ≠ Renamer.new 8 := by
  refine ⟨_, _, rfl, rfl, by decide, by decide⟩

/-- Witness for C9: consuming temporaries out of stack order panics, and
the error split is explicit. -/
theorem c9_alloc_regs_panic_condition_witness :
    ∃ e, alloc_regs [.producer ⟨9, 0, true⟩, .producer ⟨10, 0, true⟩,
      .consumer ⟨9, 0, true⟩] = .error e :=
  (c9_alloc_regs_panic_condition.1 _).mpr
    ⟨[.producer ⟨9, 0, true⟩, .producer ⟨10, 0, true⟩], ⟨9, 0, true⟩, [],
      ⟨[], [⟨10, 0, true⟩, ⟨9, 0, true⟩], 2⟩, rfl, rfl, rfl,
      ⟨10, 0, true⟩, [⟨9, 0, true⟩], rfl, by decide⟩

end Cell
